import Mathlib

/-!
Verification of the os-simulator core: a shallow embedding of
`src/process.py`, `src/memory_manager.py` and `src/scheduler.py`,
together with proofs about the embedded operations.

Python machine integers are unbounded, so times and priorities are
modelled as `Int` (timing sentinels are `-1`) and memory addresses and
sizes as `Nat`.  Division in `get_fragmentation` is modelled over `ℚ`.
-/

/-- `Process.__init__` from `src/process.py`: a process record.  All timing
fields carry the initial values assigned by the constructor; `pid` and the
static demand fields are the constructor arguments. -/
structure Process where
  pid : Nat
  arrival_time : Int
  burst_time : Int
  remaining_time : Int
  memory_required : Nat
  priority : Int
  start_time : Int
  completion_time : Int
  waiting_time : Int
  turnaround_time : Int
  response_time : Int
  memory_allocated : Bool
  memory_start : Int
  memory_end : Int
  state : String
deriving Repr, DecidableEq, Inhabited

/-- Builds a `Process` exactly as `Process.__init__` does: `remaining_time`
starts at `burst_time`, timing sentinels are `-1` for `start_time` and
`response_time` and `0` for the rest, memory fields unset, state `NEW`. -/
def mkProcess (pid : Nat) (arrival_time burst_time : Int) (memory_required : Nat)
    (priority : Int) : Process :=
  { pid := pid
    arrival_time := arrival_time
    burst_time := burst_time
    remaining_time := burst_time
    memory_required := memory_required
    priority := priority
    start_time := -1
    completion_time := 0
    waiting_time := 0
    turnaround_time := 0
    response_time := -1
    memory_allocated := false
    memory_start := -1
    memory_end := -1
    state := "NEW" }

/-- `MemoryBlock` from `src/memory_manager.py`. -/
structure MemoryBlock where
  start : Nat
  size : Nat
  allocated : Bool
  process_id : Option Nat
deriving Repr, DecidableEq, Inhabited

/-- A fresh free block, as `MemoryBlock.__init__` creates it. -/
def MemoryBlock.mkFree (start size : Nat) : MemoryBlock :=
  ⟨start, size, false, none⟩

/-- `MemoryManager` state.  Python's `allocated_blocks` dict maps a pid to
the block object it owns; since in every run of the program all live blocks
have pairwise distinct start addresses, object identity is represented here
by the owned block's `start` address, stored in an association list with
dict semantics (unique keys). -/
structure MemoryManager where
  total_memory : Nat
  strategy : String
  memory_blocks : List MemoryBlock
  allocated_blocks : List (Nat × Nat)
deriving Repr, DecidableEq

/-- `MemoryManager.__init__`: all memory starts as one free block. -/
def mkMemoryManager (total_memory : Nat) (strategy : String) : MemoryManager :=
  { total_memory := total_memory
    strategy := strategy
    memory_blocks := [MemoryBlock.mkFree 0 total_memory]
    allocated_blocks := [] }

/-- Python dict assignment `d[k] = v` on an association list: replace the
binding of `k` if present, else append. -/
def assocSet (l : List (Nat × Nat)) (k v : Nat) : List (Nat × Nat) :=
  match l with
  | [] => [(k, v)]
  | (k', v') :: rest => if k' = k then (k, v) :: rest else (k', v') :: assocSet rest k v

/-- Python dict lookup `d[k]` / membership `k in d`. -/
def assocGet (l : List (Nat × Nat)) (k : Nat) : Option Nat :=
  match l with
  | [] => none
  | (k', v') :: rest => if k' = k then some v' else assocGet rest k

/-- Python dict deletion `del d[k]`. -/
def assocErase (l : List (Nat × Nat)) (k : Nat) : List (Nat × Nat) :=
  match l with
  | [] => []
  | (k', v') :: rest => if k' = k then rest else (k', v') :: assocErase rest k

/-- `MemoryManager._first_fit`, returning the position of the chosen block
in the block list (the source returns the block object and recovers this
position with `list.index`, which finds the first occurrence). -/
def firstFitIdx (blocks : List MemoryBlock) (size : Nat) : Option Nat :=
  match blocks with
  | [] => none
  | b :: rest =>
    if !b.allocated && size ≤ b.size then some 0
    else (firstFitIdx rest size).map (· + 1)

/-- Scan for `MemoryManager._best_fit`: fold over the blocks keeping the
position and slack of the best candidate so far; a new candidate wins only
with strictly smaller slack (`size_diff < min_size_diff`), so the first
block with minimal slack is kept, and the first candidate always beats the
initial `inf`. -/
def bestFitGo (blocks : List MemoryBlock) (size i : Nat)
    (best : Option (Nat × Nat)) : Option (Nat × Nat) :=
  match blocks with
  | [] => best
  | b :: rest =>
    let best' :=
      if !b.allocated && size ≤ b.size then
        match best with
        | none => some (i, b.size - size)
        | some (j, d) => if b.size - size < d then some (i, b.size - size) else some (j, d)
      else best
    bestFitGo rest size (i + 1) best'

/-- `MemoryManager._best_fit` as a position in the block list. -/
def bestFitIdx (blocks : List MemoryBlock) (size : Nat) : Option Nat :=
  (bestFitGo blocks size 0 none).map (·.1)

/-- Scan for `MemoryManager._worst_fit`: the largest suitable block wins,
strictly (`block.size > max_size`), so the first block with maximal size is
kept; the initial `max_size = -1` means the first candidate always wins. -/
def worstFitGo (blocks : List MemoryBlock) (size i : Nat)
    (best : Option (Nat × Nat)) : Option (Nat × Nat) :=
  match blocks with
  | [] => best
  | b :: rest =>
    let best' :=
      if !b.allocated && size ≤ b.size then
        match best with
        | none => some (i, b.size)
        | some (j, mx) => if mx < b.size then some (i, b.size) else some (j, mx)
      else best
    worstFitGo rest size (i + 1) best'

/-- `MemoryManager._worst_fit` as a position in the block list. -/
def worstFitIdx (blocks : List MemoryBlock) (size : Nat) : Option Nat :=
  (worstFitGo blocks size 0 none).map (·.1)

/-- Strategy dispatch in `MemoryManager.allocate`: an unknown strategy
leaves `suitable_block = None`. -/
def fitIndex (strategy : String) (blocks : List MemoryBlock) (size : Nat) : Option Nat :=
  if strategy == "First-Fit" then firstFitIdx blocks size
  else if strategy == "Best-Fit" then bestFitIdx blocks size
  else if strategy == "Worst-Fit" then worstFitIdx blocks size
  else none

/-- The block-list surgery of `MemoryManager.allocate` at the position of
the suitable block: if the block strictly exceeds the request, a free
remainder block is inserted right after it; the suitable block is then
shrunk to the requested size, marked allocated and stamped with the pid. -/
def splitBlocksAt (blocks : List MemoryBlock) (i pid size_needed : Nat) :
    List MemoryBlock :=
  match blocks, i with
  | [], _ => []
  | b :: rest, 0 =>
    if size_needed < b.size then
      { b with size := size_needed, allocated := true, process_id := some pid }
        :: MemoryBlock.mkFree (b.start + size_needed) (b.size - size_needed) :: rest
    else
      { b with size := size_needed, allocated := true, process_id := some pid } :: rest
  | b :: rest, i + 1 => b :: splitBlocksAt rest i pid size_needed

/-- `MemoryManager.allocate`: returns the new manager, the updated process
and the boolean result. -/
def MemoryManager.allocate (m : MemoryManager) (p : Process) :
    MemoryManager × Process × Bool :=
  let size_needed := p.memory_required
  match fitIndex m.strategy m.memory_blocks size_needed with
  | none => (m, p, false)
  | some i =>
    let b := m.memory_blocks.getD i default
    let p' := { p with
      memory_allocated := true
      memory_start := (b.start : Int)
      memory_end := (b.start : Int) + (size_needed : Int) - 1 }
    ({ m with
        memory_blocks := splitBlocksAt m.memory_blocks i p.pid size_needed
        allocated_blocks := assocSet m.allocated_blocks p.pid b.start },
     p', true)

/-- Frees the first block whose start address is `s` (the block object the
ownership dict points to), clearing its allocation flag and owner. -/
def freeBlockAt (blocks : List MemoryBlock) (s : Nat) : List MemoryBlock :=
  match blocks with
  | [] => []
  | b :: rest =>
    if b.start = s then { b with allocated := false, process_id := none } :: rest
    else b :: freeBlockAt rest s

/-- `MemoryManager._merge_free_blocks`.  The source's while loop, standing
at position `i`, merges `blocks[i+1]` into `blocks[i]` whenever both are
free and stays at `i`, otherwise advances; recursing on the merged head
reproduces "stay at `i`", recursing on the tail reproduces "advance". -/
def mergeFreeBlocks : List MemoryBlock → List MemoryBlock
  | [] => []
  | [b] => [b]
  | b1 :: b2 :: rest =>
    if !b1.allocated && !b2.allocated then
      mergeFreeBlocks ({ b1 with size := b1.size + b2.size } :: rest)
    else
      b1 :: mergeFreeBlocks (b2 :: rest)
termination_by l => l.length

/-- `MemoryManager.deallocate`: fails when the pid has no owned block on
record; otherwise frees the owned block, drops the ownership entry, merges
adjacent free blocks and clears the process's `memory_allocated` flag. -/
def MemoryManager.deallocate (m : MemoryManager) (p : Process) :
    MemoryManager × Process × Bool :=
  match assocGet m.allocated_blocks p.pid with
  | none => (m, p, false)
  | some s =>
    ({ m with
        memory_blocks := mergeFreeBlocks (freeBlockAt m.memory_blocks s)
        allocated_blocks := assocErase m.allocated_blocks p.pid },
     { p with memory_allocated := false }, true)

/-- The free blocks of the manager, as filtered in `get_fragmentation`. -/
def MemoryManager.freeBlocks (m : MemoryManager) : List MemoryBlock :=
  m.memory_blocks.filter (fun b => !b.allocated)

/-- Sum of the free block sizes (`total_free`). -/
def MemoryManager.totalFree (m : MemoryManager) : Nat :=
  (m.freeBlocks.map (·.size)).sum

/-- Largest free block size (`largest_free`); Python's `max` over a
non-empty list of sizes, and the empty case is guarded by the caller. -/
def MemoryManager.largestFree (m : MemoryManager) : Nat :=
  (m.freeBlocks.map (·.size)).foldl max 0

/-- `MemoryManager.get_fragmentation`: 0 with no free blocks or no free
memory, else `(total_free - largest_free) / total_free * 100`. -/
def MemoryManager.get_fragmentation (m : MemoryManager) : ℚ :=
  if m.freeBlocks.isEmpty then 0
  else if m.totalFree = 0 then 0
  else ((m.totalFree : ℚ) - (m.largestFree : ℚ)) / (m.totalFree : ℚ) * 100

/-- The states of a memory manager reachable from construction by
`allocate` / `deallocate` calls, with a positive total memory and positive
allocation requests (the data-model constraints `total_memory ≥ 1`,
`memory_required ≥ 1`). -/
inductive MemoryManager.Reachable : MemoryManager → Prop
  | init (total : Nat) (strategy : String) (htotal : 1 ≤ total) :
      MemoryManager.Reachable (mkMemoryManager total strategy)
  | alloc (m : MemoryManager) (p : Process) (hm : MemoryManager.Reachable m)
      (hreq : 1 ≤ p.memory_required) :
      MemoryManager.Reachable (m.allocate p).1
  | dealloc (m : MemoryManager) (p : Process) (hm : MemoryManager.Reachable m) :
      MemoryManager.Reachable (m.deallocate p).1

/-- The block list tiles the address range starting at `a`: each block
begins exactly where the previous one ended. -/
def contigFrom (a : Nat) : List MemoryBlock → Prop
  | [] => True
  | b :: rest => b.start = a ∧ contigFrom (a + b.size) rest

/-- Sum of all block sizes. -/
def sumSizes (blocks : List MemoryBlock) : Nat :=
  (blocks.map (·.size)).sum

lemma firstFitIdx_sound (size : Nat) :
    ∀ (blocks : List MemoryBlock) (i : Nat), firstFitIdx blocks size = some i →
      i < blocks.length ∧ (blocks.getD i default).allocated = false ∧
        size ≤ (blocks.getD i default).size := by
  intro blocks
  induction blocks with
  | nil => intro i h; simp [firstFitIdx] at h
  | cons b rest ih =>
    intro i h
    by_cases hb : (!b.allocated && decide (size ≤ b.size)) = true
    · simp only [firstFitIdx, hb, if_true, Option.some.injEq] at h
      subst h
      simp only [Bool.and_eq_true, Bool.not_eq_true', decide_eq_true_eq] at hb
      exact ⟨by simp, by simpa [List.getD_cons_zero] using hb.1,
        by simpa [List.getD_cons_zero] using hb.2⟩
    · cases hrec : firstFitIdx rest size with
      | none => simp [firstFitIdx, hb, hrec] at h
      | some j =>
      simp [firstFitIdx, hb, hrec] at h
      obtain ⟨h1, h2, h3⟩ := ih j hrec
      have hi : i = j + 1 := by omega
      subst hi
      exact ⟨by simpa using h1, by simpa [List.getD_cons_succ] using h2,
        by simpa [List.getD_cons_succ] using h3⟩

lemma bestFitGo_sound (size : Nat) :
    ∀ (blocks : List MemoryBlock) (i : Nat) (best : Option (Nat × Nat)) (j d : Nat),
      bestFitGo blocks size i best = some (j, d) →
      best = some (j, d) ∨
        ∃ k, k < blocks.length ∧ j = i + k ∧
          (blocks.getD k default).allocated = false ∧ size ≤ (blocks.getD k default).size := by
  intro blocks
  induction blocks with
  | nil => intro i best j d h; simp [bestFitGo] at h; exact Or.inl (by simp [h])
  | cons b rest ih =>
    intro i best j d h
    simp only [bestFitGo] at h
    rcases ih _ _ _ _ h with hbest | ⟨k, hk, hjk, hfree, hsize⟩
    · by_cases hb : (!b.allocated && decide (size ≤ b.size)) = true
      · have hb' : b.allocated = false ∧ size ≤ b.size := by
          simpa [Bool.and_eq_true, Bool.not_eq_true'] using hb
        simp only [hb, if_true] at hbest
        rcases best with _ | ⟨j', d'⟩
        · simp only [Option.some.injEq, Prod.mk.injEq] at hbest
          exact Or.inr ⟨0, by simp, by omega,
            by simpa [List.getD_cons_zero] using hb'.1,
            by simpa [List.getD_cons_zero] using hb'.2⟩
        · by_cases hd : b.size - size < d'
          · simp only [hd, if_true, Option.some.injEq, Prod.mk.injEq] at hbest
            exact Or.inr ⟨0, by simp, by omega,
              by simpa [List.getD_cons_zero] using hb'.1,
              by simpa [List.getD_cons_zero] using hb'.2⟩
          · simp only [hd, if_false, Option.some.injEq, Prod.mk.injEq] at hbest
            exact Or.inl (by simp [hbest.1, hbest.2])
      · simp only [hb, if_false] at hbest
        exact Or.inl hbest
    · exact Or.inr ⟨k + 1, by simpa using hk, by omega,
        by simpa [List.getD_cons_succ] using hfree,
        by simpa [List.getD_cons_succ] using hsize⟩

lemma worstFitGo_sound (size : Nat) :
    ∀ (blocks : List MemoryBlock) (i : Nat) (best : Option (Nat × Nat)) (j d : Nat),
      worstFitGo blocks size i best = some (j, d) →
      best = some (j, d) ∨
        ∃ k, k < blocks.length ∧ j = i + k ∧
          (blocks.getD k default).allocated = false ∧ size ≤ (blocks.getD k default).size := by
  intro blocks
  induction blocks with
  | nil => intro i best j d h; simp [worstFitGo] at h; exact Or.inl (by simp [h])
  | cons b rest ih =>
    intro i best j d h
    simp only [worstFitGo] at h
    rcases ih _ _ _ _ h with hbest | ⟨k, hk, hjk, hfree, hsize⟩
    · by_cases hb : (!b.allocated && decide (size ≤ b.size)) = true
      · have hb' : b.allocated = false ∧ size ≤ b.size := by
          simpa [Bool.and_eq_true, Bool.not_eq_true'] using hb
        simp only [hb, if_true] at hbest
        rcases best with _ | ⟨j', mx⟩
        · simp only [Option.some.injEq, Prod.mk.injEq] at hbest
          exact Or.inr ⟨0, by simp, by omega,
            by simpa [List.getD_cons_zero] using hb'.1,
            by simpa [List.getD_cons_zero] using hb'.2⟩
        · by_cases hd : mx < b.size
          · simp only [hd, if_true, Option.some.injEq, Prod.mk.injEq] at hbest
            exact Or.inr ⟨0, by simp, by omega,
              by simpa [List.getD_cons_zero] using hb'.1,
              by simpa [List.getD_cons_zero] using hb'.2⟩
          · simp only [hd, if_false, Option.some.injEq, Prod.mk.injEq] at hbest
            exact Or.inl (by simp [hbest.1, hbest.2])
      · simp only [hb, if_false] at hbest
        exact Or.inl hbest
    · exact Or.inr ⟨k + 1, by simpa using hk, by omega,
        by simpa [List.getD_cons_succ] using hfree,
        by simpa [List.getD_cons_succ] using hsize⟩

lemma fitIndex_sound (strategy : String) (blocks : List MemoryBlock) (size i : Nat)
    (h : fitIndex strategy blocks size = some i) :
    i < blocks.length ∧ (blocks.getD i default).allocated = false ∧
      size ≤ (blocks.getD i default).size := by
  unfold fitIndex at h
  split_ifs at h
  · exact firstFitIdx_sound size blocks i h
  · unfold bestFitIdx at h
    obtain ⟨⟨j, d⟩, hg, hj⟩ := Option.map_eq_some'.1 h
    rcases bestFitGo_sound size blocks 0 none j d hg with hc | ⟨k, hk, hjk, hfree, hsize⟩
    · simp at hc
    · simp only at hj
      subst hj
      refine ⟨by omega, by simpa [show j = k by omega] using hfree,
        by simpa [show j = k by omega] using hsize⟩
  · unfold worstFitIdx at h
    obtain ⟨⟨j, d⟩, hg, hj⟩ := Option.map_eq_some'.1 h
    rcases worstFitGo_sound size blocks 0 none j d hg with hc | ⟨k, hk, hjk, hfree, hsize⟩
    · simp at hc
    · simp only at hj
      subst hj
      refine ⟨by omega, by simpa [show j = k by omega] using hfree,
        by simpa [show j = k by omega] using hsize⟩

lemma splitBlocksAt_contig (pid size_needed : Nat) :
    ∀ (blocks : List MemoryBlock) (i a : Nat), contigFrom a blocks →
      i < blocks.length → size_needed ≤ (blocks.getD i default).size →
      contigFrom a (splitBlocksAt blocks i pid size_needed) := by
  intro blocks
  induction blocks with
  | nil => intro i a _ hi _; simp at hi
  | cons b rest ih =>
    intro i a hc hi hle
    match i with
    | 0 =>
      rw [List.getD_cons_zero] at hle
      obtain ⟨hstart, hrest⟩ := hc
      by_cases hsplit : size_needed < b.size
      · simp only [splitBlocksAt, hsplit, if_true]
        refine ⟨hstart, ?_, ?_⟩
        · simp [MemoryBlock.mkFree, hstart]
        · simpa [MemoryBlock.mkFree, show a + size_needed + (b.size - size_needed) = a + b.size by omega] using hrest
      · simp only [splitBlocksAt, hsplit, if_false]
        have : size_needed = b.size := by omega
        exact ⟨hstart, by simpa [this] using hrest⟩
    | i + 1 =>
      obtain ⟨hstart, hrest⟩ := hc
      rw [List.getD_cons_succ] at hle
      exact ⟨hstart, ih i (a + b.size) hrest (by simpa using hi) hle⟩

lemma splitBlocksAt_sum (pid size_needed : Nat) :
    ∀ (blocks : List MemoryBlock) (i : Nat), i < blocks.length →
      size_needed ≤ (blocks.getD i default).size →
      sumSizes (splitBlocksAt blocks i pid size_needed) = sumSizes blocks := by
  intro blocks
  induction blocks with
  | nil => intro i hi; simp at hi
  | cons b rest ih =>
    intro i hi hle
    match i with
    | 0 =>
      rw [List.getD_cons_zero] at hle
      by_cases hsplit : size_needed < b.size
      · simp only [splitBlocksAt, hsplit, if_true]
        simp [sumSizes, MemoryBlock.mkFree]
        omega
      · simp only [splitBlocksAt, hsplit, if_false]
        have : size_needed = b.size := by omega
        simp [sumSizes, this]
    | i + 1 =>
      rw [List.getD_cons_succ] at hle
      have := ih i (by simpa using hi) hle
      simp only [splitBlocksAt]
      simp [sumSizes] at this ⊢
      omega

lemma splitBlocksAt_pos (pid size_needed : Nat) :
    ∀ (blocks : List MemoryBlock) (i : Nat), (∀ b ∈ blocks, 0 < b.size) →
      1 ≤ size_needed →
      ∀ b ∈ splitBlocksAt blocks i pid size_needed, 0 < b.size := by
  intro blocks
  induction blocks with
  | nil => intro i _ _ b hb; simp [splitBlocksAt] at hb
  | cons b rest ih =>
    intro i hpos hreq c hc
    match i with
    | 0 =>
      by_cases hsplit : size_needed < b.size
      · simp only [splitBlocksAt, hsplit, if_true] at hc
        rcases List.mem_cons.1 hc with rfl | hc'
        · simpa using hreq
        · rcases List.mem_cons.1 hc' with rfl | hc''
          · simp [MemoryBlock.mkFree]; omega
          · exact hpos c (by simp [hc''])
      · simp only [splitBlocksAt, hsplit, if_false] at hc
        rcases List.mem_cons.1 hc with rfl | hc'
        · simpa using hreq
        · exact hpos c (by simp [hc'])
    | i + 1 =>
      simp only [splitBlocksAt] at hc
      rcases List.mem_cons.1 hc with rfl | hc'
      · exact hpos c (by simp)
      · exact ih i (fun x hx => hpos x (by simp [hx])) hreq c hc'

lemma freeBlockAt_contig (s : Nat) :
    ∀ (blocks : List MemoryBlock) (a : Nat), contigFrom a blocks →
      contigFrom a (freeBlockAt blocks s) := by
  intro blocks
  induction blocks with
  | nil => intro a h; simpa [freeBlockAt] using h
  | cons b rest ih =>
    intro a h
    obtain ⟨hstart, hrest⟩ := h
    by_cases hs : b.start = s
    · simp only [freeBlockAt]
      rw [if_pos hs]
      exact ⟨hstart, hrest⟩
    · simp only [freeBlockAt, if_neg hs]
      exact ⟨hstart, ih (a + b.size) hrest⟩

lemma freeBlockAt_sum (s : Nat) :
    ∀ (blocks : List MemoryBlock), sumSizes (freeBlockAt blocks s) = sumSizes blocks := by
  intro blocks
  induction blocks with
  | nil => simp [freeBlockAt]
  | cons b rest ih =>
    by_cases hs : b.start = s
    · simp [freeBlockAt, hs, sumSizes]
    · simp [freeBlockAt, hs, sumSizes] at ih ⊢
      omega

lemma freeBlockAt_pos (s : Nat) :
    ∀ (blocks : List MemoryBlock), (∀ b ∈ blocks, 0 < b.size) →
      ∀ b ∈ freeBlockAt blocks s, 0 < b.size := by
  intro blocks
  induction blocks with
  | nil => intro _ b hb; simp [freeBlockAt] at hb
  | cons b rest ih =>
    intro hpos c hc
    by_cases hs : b.start = s
    · simp only [freeBlockAt, hs, if_pos rfl] at hc
      rcases List.mem_cons.1 hc with rfl | hc'
      · simpa using hpos b (by simp)
      · exact hpos c (by simp [hc'])
    · simp only [freeBlockAt, if_neg hs] at hc
      rcases List.mem_cons.1 hc with rfl | hc'
      · exact hpos c (by simp)
      · exact ih (fun x hx => hpos x (by simp [hx])) c hc'

lemma mergeFreeBlocks_contig :
    ∀ (l : List MemoryBlock) (a : Nat), contigFrom a l →
      contigFrom a (mergeFreeBlocks l) := by
  intro l
  induction l using mergeFreeBlocks.induct with
  | case1 => intro a h; simpa [mergeFreeBlocks] using h
  | case2 b => intro a h; simpa [mergeFreeBlocks] using h
  | case3 b1 b2 rest hfree ih =>
    intro a h
    obtain ⟨h1, h2, h3⟩ := h
    rw [mergeFreeBlocks, if_pos hfree]
    exact ih a ⟨h1, by simpa [show a + (b1.size + b2.size) = a + b1.size + b2.size by omega, ← h2] using h3⟩
  | case4 b1 b2 rest hfree ih =>
    intro a h
    obtain ⟨h1, h2, h3⟩ := h
    rw [mergeFreeBlocks, if_neg hfree]
    exact ⟨h1, ih (a + b1.size) ⟨h2, h3⟩⟩

lemma mergeFreeBlocks_sum :
    ∀ (l : List MemoryBlock), sumSizes (mergeFreeBlocks l) = sumSizes l := by
  intro l
  induction l using mergeFreeBlocks.induct with
  | case1 => simp [mergeFreeBlocks]
  | case2 b => simp [mergeFreeBlocks]
  | case3 b1 b2 rest hfree ih =>
    rw [mergeFreeBlocks, if_pos hfree]
    simp [sumSizes] at ih ⊢
    omega
  | case4 b1 b2 rest hfree ih =>
    rw [mergeFreeBlocks, if_neg hfree]
    simp [sumSizes] at ih ⊢
    omega

lemma mergeFreeBlocks_pos :
    ∀ (l : List MemoryBlock), (∀ b ∈ l, 0 < b.size) →
      ∀ b ∈ mergeFreeBlocks l, 0 < b.size := by
  intro l
  induction l using mergeFreeBlocks.induct with
  | case1 => intro _ b hb; simp [mergeFreeBlocks] at hb
  | case2 b =>
    intro hpos c hc
    simp only [mergeFreeBlocks] at hc
    rcases List.mem_cons.1 hc with rfl | hc'
    · exact hpos c (by simp)
    · simp at hc'
  | case3 b1 b2 rest hfree ih =>
    intro hpos c hc
    rw [mergeFreeBlocks, if_pos hfree] at hc
    refine ih ?_ c hc
    intro x hx
    rcases List.mem_cons.1 hx with rfl | hx'
    · have h1 := hpos b1 (by simp)
      simp at h1 ⊢
      omega
    · exact hpos x (by simp [hx'])
  | case4 b1 b2 rest hfree ih =>
    intro hpos c hc
    rw [mergeFreeBlocks, if_neg hfree] at hc
    rcases List.mem_cons.1 hc with rfl | hc'
    · exact hpos c (by simp)
    · exact ih (fun x hx => hpos x (by simp [hx])) c hc'

/-- The partition invariant of the block list: contiguous tiling of the
address space from 0, sizes summing to `total_memory`, all sizes positive. -/
def MemInv (m : MemoryManager) : Prop :=
  contigFrom 0 m.memory_blocks ∧ sumSizes m.memory_blocks = m.total_memory ∧
    ∀ b ∈ m.memory_blocks, 0 < b.size

lemma reachable_memInv (m : MemoryManager) (hm : m.Reachable) : MemInv m := by
  induction hm with
  | init total strategy htotal =>
    refine ⟨⟨rfl, trivial⟩, by simp [mkMemoryManager, sumSizes, MemoryBlock.mkFree], ?_⟩
    intro b hb
    simp [mkMemoryManager, MemoryBlock.mkFree] at hb
    subst hb
    simpa using htotal
  | alloc m p hm hreq ih =>
    obtain ⟨hc, hs, hp⟩ := ih
    cases hfit : fitIndex m.strategy m.memory_blocks p.memory_required with
    | none => simpa only [MemoryManager.allocate, hfit] using ⟨hc, hs, hp⟩
    | some i =>
      obtain ⟨hi, _, hle⟩ := fitIndex_sound m.strategy m.memory_blocks p.memory_required i hfit
      simp only [MemoryManager.allocate, hfit]
      refine ⟨splitBlocksAt_contig _ _ _ _ _ hc hi hle,
        by rw [splitBlocksAt_sum _ _ _ _ hi hle]; exact hs,
        splitBlocksAt_pos _ _ _ _ hp hreq⟩
  | dealloc m p hm ih =>
    obtain ⟨hc, hs, hp⟩ := ih
    cases hget : assocGet m.allocated_blocks p.pid with
    | none => simpa only [MemoryManager.deallocate, hget] using ⟨hc, hs, hp⟩
    | some s =>
      simp only [MemoryManager.deallocate, hget]
      refine ⟨mergeFreeBlocks_contig _ _ (freeBlockAt_contig _ _ _ hc),
        ?_, mergeFreeBlocks_pos _ (freeBlockAt_pos _ _ hp)⟩
      rw [mergeFreeBlocks_sum, freeBlockAt_sum]
      exact hs

lemma contigFrom_chain_lt :
    ∀ (l : List MemoryBlock) (a : Nat), contigFrom a l → (∀ b ∈ l, 0 < b.size) →
      List.Chain' (fun x y => x.start < y.start) l := by
  intro l
  induction l with
  | nil => intro a _ _; simp
  | cons b rest ih =>
    intro a hc hpos
    obtain ⟨hstart, hrest⟩ := hc
    cases rest with
    | nil => simp
    | cons c t =>
      rw [List.chain'_cons]
      refine ⟨?_, ih (a + b.size) hrest fun x hx => hpos x (by simp [hx])⟩
      have h1 : c.start = a + b.size := hrest.1
      have h2 : 0 < b.size := hpos b (by simp)
      omega

lemma contigFrom_chain_abut :
    ∀ (l : List MemoryBlock) (a : Nat), contigFrom a l →
      List.Chain' (fun x y => x.start + x.size = y.start) l := by
  intro l
  induction l with
  | nil => intro a _; simp
  | cons b rest ih =>
    intro a hc
    obtain ⟨hstart, hrest⟩ := hc
    cases rest with
    | nil => simp
    | cons c t =>
      rw [List.chain'_cons]
      exact ⟨by rw [hstart]; exact hrest.1.symm, ih (a + b.size) hrest⟩

/-- **C1.** For every sequence of `allocate`/`deallocate` calls starting
from the initial single free block (with positive total memory and positive
requests, the data-model constraints), the block list stays contiguous from
address 0, its sizes sum to `total_memory`, it is sorted by strictly
increasing start address, and the blocks are pairwise non-overlapping: the
blocks partition `[0, total_memory)`. -/
theorem partition_invariant (m : MemoryManager) (hm : m.Reachable) :
    contigFrom 0 m.memory_blocks ∧
      sumSizes m.memory_blocks = m.total_memory ∧
      List.Chain' (fun x y => x.start < y.start) m.memory_blocks ∧
      List.Pairwise (fun x y => x.start + x.size ≤ y.start) m.memory_blocks := by
  obtain ⟨hc, hs, hp⟩ := reachable_memInv m hm
  refine ⟨hc, hs, contigFrom_chain_lt _ _ hc hp, ?_⟩
  haveI : IsTrans MemoryBlock (fun x y => x.start + x.size ≤ y.start) :=
    ⟨fun a b c hab hbc => by omega⟩
  rw [← List.chain'_iff_pairwise]
  exact (contigFrom_chain_abut _ _ hc).imp fun a b h => by omega

/-- Closed instance of `partition_invariant` after one allocation. -/
theorem partition_invariant_witness :
    contigFrom 0 ((mkMemoryManager 16 "First-Fit").allocate (mkProcess 1 0 5 4 0)).1.memory_blocks ∧
      sumSizes ((mkMemoryManager 16 "First-Fit").allocate (mkProcess 1 0 5 4 0)).1.memory_blocks =
        ((mkMemoryManager 16 "First-Fit").allocate (mkProcess 1 0 5 4 0)).1.total_memory :=
  ⟨(partition_invariant _ (.alloc _ _ (.init 16 "First-Fit" (by decide)) (by decide))).1,
   (partition_invariant _ (.alloc _ _ (.init 16 "First-Fit" (by decide)) (by decide))).2.1⟩

/-- **C10.** In every reachable allocator state (positive total memory,
positive requests), every block in the block list has a strictly positive
size: a split happens only when the block strictly exceeds the request, so
no zero-size remainder is ever created, and merging only grows sizes. -/
theorem blocks_size_pos (m : MemoryManager) (hm : m.Reachable) :
    ∀ b ∈ m.memory_blocks, 0 < b.size :=
  (reachable_memInv m hm).2.2

/-- Closed instance of `blocks_size_pos` after one allocation. -/
theorem blocks_size_pos_witness :
    (((mkMemoryManager 32 "Best-Fit").allocate (mkProcess 1 0 5 10 0)).1.memory_blocks.all
      (fun b => decide (0 < b.size))) = true := by
  rw [List.all_eq_true]
  intro x hx
  exact decide_eq_true
    (blocks_size_pos _ (.alloc _ _ (.init 32 "Best-Fit" (by decide)) (by decide)) x hx)

/-- **C5 (counterexample).** A successful `deallocate` does not reset
`memory_start`/`memory_end`: after allocating 4 MB at address 0 (setting
`memory_start = 0`, `memory_end = 3`) and deallocating, the process still
carries `memory_start = 0` and `memory_end = 3`, not the `-1` sentinels. -/
theorem deallocate_keeps_addresses_counterexample :
    ((mkMemoryManager 8 "First-Fit").allocate (mkProcess 1 0 5 4 0)).2.1.memory_start = 0 ∧
    ((mkMemoryManager 8 "First-Fit").allocate (mkProcess 1 0 5 4 0)).2.1.memory_end = 3 ∧
    (((mkMemoryManager 8 "First-Fit").allocate (mkProcess 1 0 5 4 0)).1.deallocate
      ((mkMemoryManager 8 "First-Fit").allocate (mkProcess 1 0 5 4 0)).2.1).2.2 = true ∧
    (((mkMemoryManager 8 "First-Fit").allocate (mkProcess 1 0 5 4 0)).1.deallocate
      ((mkMemoryManager 8 "First-Fit").allocate (mkProcess 1 0 5 4 0)).2.1).2.1.memory_allocated = false ∧
    (((mkMemoryManager 8 "First-Fit").allocate (mkProcess 1 0 5 4 0)).1.deallocate
      ((mkMemoryManager 8 "First-Fit").allocate (mkProcess 1 0 5 4 0)).2.1).2.1.memory_start = 0 ∧
    (((mkMemoryManager 8 "First-Fit").allocate (mkProcess 1 0 5 4 0)).1.deallocate
      ((mkMemoryManager 8 "First-Fit").allocate (mkProcess 1 0 5 4 0)).2.1).2.1.memory_end = 3 := by
  decide

/-- **C5 (amended).** After a successful `deallocate(process)` call the
process's `memory_allocated` flag is false, while `memory_start` and
`memory_end` are left unchanged, still holding the addresses set at
allocation. -/
theorem deallocate_clears_flag_only (m : MemoryManager) (p : Process)
    (h : (m.deallocate p).2.2 = true) :
    (m.deallocate p).2.1.memory_allocated = false ∧
    (m.deallocate p).2.1.memory_start = p.memory_start ∧
    (m.deallocate p).2.1.memory_end = p.memory_end := by
  cases hget : assocGet m.allocated_blocks p.pid with
  | none => simp [MemoryManager.deallocate, hget] at h
  | some s => simp [MemoryManager.deallocate, hget]

/-- Closed instance of `deallocate_clears_flag_only`. -/
theorem deallocate_clears_flag_only_witness :
    (((mkMemoryManager 10 "First-Fit").allocate (mkProcess 2 0 5 6 0)).1.deallocate
      ((mkMemoryManager 10 "First-Fit").allocate (mkProcess 2 0 5 6 0)).2.1).2.1.memory_allocated = false ∧
    (((mkMemoryManager 10 "First-Fit").allocate (mkProcess 2 0 5 6 0)).1.deallocate
      ((mkMemoryManager 10 "First-Fit").allocate (mkProcess 2 0 5 6 0)).2.1).2.1.memory_start = 0 := by
  obtain ⟨h1, h2, h3⟩ := deallocate_clears_flag_only
    ((mkMemoryManager 10 "First-Fit").allocate (mkProcess 2 0 5 6 0)).1
    ((mkMemoryManager 10 "First-Fit").allocate (mkProcess 2 0 5 6 0)).2.1
    (by decide)
  refine ⟨h1, ?_⟩
  rw [h2]
  decide

lemma mergeFreeBlocks_cons_head :
    ∀ (l : List MemoryBlock) (b : MemoryBlock), ∃ s rest,
      mergeFreeBlocks (b :: l) = { b with size := s } :: rest := by
  intro l
  induction l with
  | nil => intro b; exact ⟨b.size, [], by rw [mergeFreeBlocks]⟩
  | cons c t ih =>
    intro b
    by_cases hfree : (!b.allocated && !c.allocated) = true
    · obtain ⟨s, rest, heq⟩ := ih { b with size := b.size + c.size }
      exact ⟨s, rest, by rw [mergeFreeBlocks, if_pos hfree]; exact heq⟩
    · exact ⟨b.size, mergeFreeBlocks (c :: t), by rw [mergeFreeBlocks, if_neg hfree]⟩

lemma mergeFreeBlocks_chain :
    ∀ (l : List MemoryBlock),
      List.Chain' (fun x y => x.allocated = true ∨ y.allocated = true)
        (mergeFreeBlocks l) := by
  intro l
  induction l using mergeFreeBlocks.induct with
  | case1 => simp [mergeFreeBlocks]
  | case2 b => simp [mergeFreeBlocks]
  | case3 b1 b2 rest hfree ih => rw [mergeFreeBlocks, if_pos hfree]; exact ih
  | case4 b1 b2 rest hfree ih =>
    rw [mergeFreeBlocks, if_neg hfree]
    rw [List.chain'_cons']
    refine ⟨?_, ih⟩
    intro y hy
    obtain ⟨s, rest', heq⟩ := mergeFreeBlocks_cons_head rest b2
    rw [heq] at hy
    simp only [List.head?_cons, Option.mem_def, Option.some.injEq] at hy
    subst hy
    cases h1 : b1.allocated <;> cases h2 : b2.allocated <;> simp_all

/-- **C7.** After every successful `deallocate` call, no two adjacent
blocks of the block list are both free: `_merge_free_blocks` coalesces
every maximal run of adjacent free blocks into a single block, so in the
resulting list every adjacent pair contains an allocated block. -/
theorem no_adjacent_free_after_deallocate (m : MemoryManager) (p : Process)
    (h : (m.deallocate p).2.2 = true) :
    List.Chain' (fun x y => x.allocated = true ∨ y.allocated = true)
      (m.deallocate p).1.memory_blocks := by
  cases hget : assocGet m.allocated_blocks p.pid with
  | none => simp [MemoryManager.deallocate, hget] at h
  | some s =>
    simp only [MemoryManager.deallocate, hget]
    exact mergeFreeBlocks_chain _

/-- Closed instance of `no_adjacent_free_after_deallocate`. -/
theorem no_adjacent_free_after_deallocate_witness :
    List.Chain' (fun x y => x.allocated = true ∨ y.allocated = true)
      (((mkMemoryManager 12 "First-Fit").allocate (mkProcess 3 0 5 5 0)).1.deallocate
        ((mkMemoryManager 12 "First-Fit").allocate (mkProcess 3 0 5 5 0)).2.1).1.memory_blocks :=
  no_adjacent_free_after_deallocate _ _ (by decide)

lemma assocGet_eq_none_of_not_mem :
    ∀ (l : List (Nat × Nat)) (k : Nat), k ∉ l.map Prod.fst → assocGet l k = none := by
  intro l
  induction l with
  | nil => intro k _; rfl
  | cons kv rest ih =>
    intro k hk
    obtain ⟨k', v'⟩ := kv
    simp only [List.map_cons, List.mem_cons] at hk
    push_neg at hk
    simp only [assocGet, if_neg (by simpa using Ne.symm hk.1)]
    exact ih k hk.2

lemma assocGet_erase_self :
    ∀ (l : List (Nat × Nat)) (k : Nat), (l.map Prod.fst).Nodup →
      assocGet (assocErase l k) k = none := by
  intro l
  induction l with
  | nil => intro k _; rfl
  | cons kv rest ih =>
    intro k hnd
    obtain ⟨k', v'⟩ := kv
    simp only [List.map_cons, List.nodup_cons] at hnd
    by_cases hk : k' = k
    · subst hk
      simp only [assocErase, if_pos rfl]
      exact assocGet_eq_none_of_not_mem rest k' hnd.1
    · simp only [assocErase, if_neg hk, assocGet, if_neg hk]
      exact ih k hnd.2

/-- **C8.** `deallocate(process)` returns false exactly when the process
has no owned block in the ownership map, a failing call leaves both the
manager and the process completely unchanged, and after a successful call
a second `deallocate` on the same process fails with no state change. -/
theorem deallocate_failure_semantics (m : MemoryManager) (p : Process)
    (hnd : (m.allocated_blocks.map Prod.fst).Nodup) :
    ((m.deallocate p).2.2 = false ↔ assocGet m.allocated_blocks p.pid = none) ∧
    (assocGet m.allocated_blocks p.pid = none → m.deallocate p = (m, p, false)) ∧
    (assocGet m.allocated_blocks p.pid ≠ none →
      (m.deallocate p).2.2 = true ∧
      (m.deallocate p).1.deallocate (m.deallocate p).2.1 =
        ((m.deallocate p).1, (m.deallocate p).2.1, false)) := by
  cases hget : assocGet m.allocated_blocks p.pid with
  | none =>
    refine ⟨by simp [MemoryManager.deallocate, hget], ?_, by simp⟩
    intro _
    simp [MemoryManager.deallocate, hget]
  | some s =>
    refine ⟨by simp [MemoryManager.deallocate, hget], by simp, ?_⟩
    intro _
    refine ⟨by simp [MemoryManager.deallocate, hget], ?_⟩
    have hnone : assocGet (m.deallocate p).1.allocated_blocks (m.deallocate p).2.1.pid = none := by
      simp only [MemoryManager.deallocate, hget]
      exact assocGet_erase_self _ _ hnd
    conv_lhs => rw [MemoryManager.deallocate]
    rw [hnone]

/-- Closed instance of `deallocate_failure_semantics`: after an allocation,
the first `deallocate` succeeds and the second fails. -/
theorem deallocate_failure_semantics_witness :
    (((mkMemoryManager 8 "Worst-Fit").allocate (mkProcess 4 0 5 3 0)).1.deallocate
      ((mkMemoryManager 8 "Worst-Fit").allocate (mkProcess 4 0 5 3 0)).2.1).2.2 = true ∧
    ((((mkMemoryManager 8 "Worst-Fit").allocate (mkProcess 4 0 5 3 0)).1.deallocate
        ((mkMemoryManager 8 "Worst-Fit").allocate (mkProcess 4 0 5 3 0)).2.1).1.deallocate
      (((mkMemoryManager 8 "Worst-Fit").allocate (mkProcess 4 0 5 3 0)).1.deallocate
        ((mkMemoryManager 8 "Worst-Fit").allocate (mkProcess 4 0 5 3 0)).2.1).2.1).2.2 = false := by
  obtain ⟨h1, h2, h3⟩ := deallocate_failure_semantics
    ((mkMemoryManager 8 "Worst-Fit").allocate (mkProcess 4 0 5 3 0)).1
    ((mkMemoryManager 8 "Worst-Fit").allocate (mkProcess 4 0 5 3 0)).2.1
    (by decide)
  obtain ⟨h4, h5⟩ := h3 (by decide)
  exact ⟨h4, by rw [h5]⟩

lemma foldl_max_le_sum : ∀ (l : List Nat) (a : Nat), l.foldl max a ≤ max a l.sum := by
  intro l
  induction l with
  | nil => intro a; simp
  | cons x t ih =>
    intro a
    simp only [List.foldl_cons, List.sum_cons]
    calc t.foldl max (max a x) ≤ max (max a x) t.sum := ih _
    _ ≤ max a (x + t.sum) := by omega

lemma largestFree_le_totalFree (m : MemoryManager) : m.largestFree ≤ m.totalFree := by
  have := foldl_max_le_sum (m.freeBlocks.map (·.size)) 0
  simpa [MemoryManager.largestFree, MemoryManager.totalFree] using this

/-- **C6.** `get_fragmentation` always lies in `[0, 100]`; it is 0 when
there are no free blocks, when the total free size is 0, and more generally
whenever at most one free block exists; and whenever free memory exists it
returns exactly `(total_free - largest_free) / total_free * 100` computed
over the free blocks only.  The function is total: every branch returns a
value, so no error is possible. -/
theorem fragmentation_bounds (m : MemoryManager) :
    (0 ≤ m.get_fragmentation ∧ m.get_fragmentation ≤ 100) ∧
    (m.freeBlocks.length ≤ 1 → m.get_fragmentation = 0) ∧
    (m.totalFree = 0 → m.get_fragmentation = 0) ∧
    (m.freeBlocks ≠ [] → m.totalFree ≠ 0 →
      m.get_fragmentation =
        ((m.totalFree : ℚ) - (m.largestFree : ℚ)) / (m.totalFree : ℚ) * 100) := by
  by_cases hemp : m.freeBlocks.isEmpty
  · refine ⟨by simp [MemoryManager.get_fragmentation, hemp], ?_, ?_, ?_⟩
    · intro _; simp [MemoryManager.get_fragmentation, hemp]
    · intro _; simp [MemoryManager.get_fragmentation, hemp]
    · intro hne _; exact absurd (List.isEmpty_iff.1 hemp) hne
  · by_cases htot : m.totalFree = 0
    · refine ⟨by simp [MemoryManager.get_fragmentation, hemp, htot], ?_, ?_, ?_⟩
      · intro _; simp [MemoryManager.get_fragmentation, hemp, htot]
      · intro _; simp [MemoryManager.get_fragmentation, hemp, htot]
      · intro _ hne; exact absurd htot hne
    · have hfrag : m.get_fragmentation =
          ((m.totalFree : ℚ) - (m.largestFree : ℚ)) / (m.totalFree : ℚ) * 100 := by
        simp [MemoryManager.get_fragmentation, hemp, htot]
      have hTpos : 0 < (m.totalFree : ℚ) := by
        exact_mod_cast Nat.pos_of_ne_zero htot
      have hLle : (m.largestFree : ℚ) ≤ (m.totalFree : ℚ) := by
        exact_mod_cast largestFree_le_totalFree m
      have hLnn : 0 ≤ (m.largestFree : ℚ) := by positivity
      refine ⟨⟨?_, ?_⟩, ?_, fun h => absurd h htot, fun _ _ => hfrag⟩
      · rw [hfrag]
        apply mul_nonneg _ (by norm_num)
        apply div_nonneg (by linarith) hTpos.le
      · rw [hfrag]
        have h1 : ((m.totalFree : ℚ) - (m.largestFree : ℚ)) / (m.totalFree : ℚ) ≤ 1 := by
          rw [div_le_one hTpos]
          linarith
        calc ((m.totalFree : ℚ) - (m.largestFree : ℚ)) / (m.totalFree : ℚ) * 100
            ≤ 1 * 100 := by
              apply mul_le_mul_of_nonneg_right h1 (by norm_num)
        _ = 100 := by norm_num
      · intro hlen
        match hF : m.freeBlocks with
        | [] => exact absurd hF (by simpa [List.isEmpty_iff] using hemp)
        | [b] =>
          have hT : m.totalFree = b.size := by simp [MemoryManager.totalFree, hF]
          have hL : m.largestFree = b.size := by
            simp [MemoryManager.largestFree, hF]
          rw [hfrag, hT, hL]
          simp
        | b :: c :: t => simp [hF] at hlen

/-- Closed instance of `fragmentation_bounds`: two free blocks of sizes 3
and 4 give fragmentation `(7 - 4) / 7 * 100 = 300/7`. -/
theorem fragmentation_bounds_witness :
    (MemoryManager.mk 9 "First-Fit"
        [⟨0, 3, false, none⟩, ⟨3, 2, true, some 1⟩, ⟨5, 4, false, none⟩]
        [(1, 3)]).get_fragmentation = 300 / 7 := by
  rw [(fragmentation_bounds _).2.2.2 (by decide) (by decide)]
  norm_num [MemoryManager.totalFree, MemoryManager.largestFree, MemoryManager.freeBlocks]

/-- An entry of the scheduler's `ready_queue`.  For FCFS and RR the Python
list holds bare `Process` objects (`plain`); for SJF and Priority it holds
`(key, arrival_time, process)` tuples (`keyed`). -/
inductive ReadyItem where
  | plain (p : Process)
  | keyed (k1 k2 : Int) (p : Process)
deriving Repr, DecidableEq, Inhabited

/-- The process carried by a ready-queue entry (`tuple[2]` for heap
entries). -/
def ReadyItem.proc : ReadyItem → Process
  | .plain p => p
  | .keyed _ _ p => p

/-- Python's `<` on the heap tuples `(key, arrival_time, process)`:
lexicographic on the two integer keys; on a full tie the distinct process
objects are compared with `Process.__lt__`, which compares `priority`.
Heap operations are only ever applied to `keyed` entries. -/
def ReadyItem.lt : ReadyItem → ReadyItem → Bool
  | .keyed k1 k2 p, .keyed l1 l2 q =>
      decide (k1 < l1) ||
        (k1 == l1 && (decide (k2 < l2) || (k2 == l2 && decide (p.priority < q.priority))))
  | _, _ => false

/-- CPython `heapq._siftdown(heap, startpos, pos)`: walk `newitem` up from
`pos` towards `startpos`, moving larger parents down, and finally store
`newitem` at the last position reached. -/
def siftdownLoop (heap : List ReadyItem) (newitem : ReadyItem) (startpos pos : Nat) :
    List ReadyItem :=
  if h : startpos < pos then
    if newitem.lt (heap.getD ((pos - 1) / 2) default) then
      siftdownLoop (heap.set pos (heap.getD ((pos - 1) / 2) default)) newitem startpos
        ((pos - 1) / 2)
    else heap.set pos newitem
  else heap.set pos newitem
termination_by pos
decreasing_by omega

/-- CPython `heapq._siftup(heap, pos)` (with `endpos` and `startpos` made
explicit): walk a hole down to a leaf, always moving the smaller child up,
then sift `newitem` back up with `_siftdown`. -/
def siftupLoop (heap : List ReadyItem) (newitem : ReadyItem) (endpos startpos pos : Nat) :
    List ReadyItem :=
  if h : 2 * pos + 1 < endpos then
    if hc : 2 * pos + 2 < endpos ∧
        ¬((heap.getD (2 * pos + 1) default).lt (heap.getD (2 * pos + 2) default) = true) then
      siftupLoop (heap.set pos (heap.getD (2 * pos + 2) default)) newitem endpos startpos
        (2 * pos + 2)
    else
      siftupLoop (heap.set pos (heap.getD (2 * pos + 1) default)) newitem endpos startpos
        (2 * pos + 1)
  else siftdownLoop (heap.set pos newitem) newitem startpos pos
termination_by endpos - pos
decreasing_by
  · omega
  · omega

/-- CPython `heapq.heappush`: append, then sift the new last element down
towards the root. -/
def heappush (heap : List ReadyItem) (item : ReadyItem) : List ReadyItem :=
  siftdownLoop (heap ++ [item]) item 0 heap.length

/-- CPython `heapq.heappop`: pop the last element; if the heap is still
non-empty, remember the root, move the last element to the root and sift it
up; `none` models the exception on an empty heap (the caller guards). -/
def heappop (heap : List ReadyItem) : Option (ReadyItem × List ReadyItem) :=
  match heap.getLast? with
  | none => none
  | some lastelt =>
    let rest := heap.dropLast
    if rest.isEmpty then some (lastelt, rest)
    else some (rest.headD default, siftupLoop (rest.set 0 lastelt) lastelt rest.length 0 0)

/-- The mutable state of `Scheduler` from `src/scheduler.py`. -/
structure SchedState where
  algorithm : String
  time_quantum : Int
  ready_queue : List ReadyItem
  current_time : Int
  completed : List Process
  gantt : List (Nat × Int × Int)
deriving Repr, DecidableEq, Inhabited

/-- `Scheduler.__init__`: no validation of any argument is performed. -/
def mkScheduler (algorithm : String) (time_quantum : Int) : SchedState :=
  { algorithm := algorithm
    time_quantum := time_quantum
    ready_queue := []
    current_time := 0
    completed := []
    gantt := [] }

/-- `Scheduler.add_process`: set the state to READY, then append to the
FIFO list (FCFS, RR) or heap-push a `(key, arrival_time, process)` tuple
(SJF keyed by `remaining_time`, Priority keyed by `priority`); any other
algorithm string leaves the queue untouched. -/
def addProcess (s : SchedState) (p : Process) : SchedState :=
  let p := { p with state := "READY" }
  if s.algorithm == "FCFS" then { s with ready_queue := s.ready_queue ++ [.plain p] }
  else if s.algorithm == "SJF" then
    { s with ready_queue := heappush s.ready_queue (.keyed p.remaining_time p.arrival_time p) }
  else if s.algorithm == "Priority" then
    { s with ready_queue := heappush s.ready_queue (.keyed p.priority p.arrival_time p) }
  else if s.algorithm == "RR" then { s with ready_queue := s.ready_queue ++ [.plain p] }
  else s

/-- `Scheduler.get_next_process`: `None` on an empty queue; heap-pop for
SJF/Priority (taking `tuple[2]`), `pop(0)` for FCFS/RR. -/
def getNext (s : SchedState) : Option (Process × SchedState) :=
  match s.ready_queue with
  | [] => none
  | x :: rest =>
    if s.algorithm == "SJF" || s.algorithm == "Priority" then
      match heappop (x :: rest) with
      | none => none
      | some (item, h') => some (item.proc, { s with ready_queue := h' })
    else
      some (x.proc, { s with ready_queue := rest })

/-- `Scheduler.execute`: run `p` for `min(time_slice, remaining_time)`
simulated time units, recording `start_time`/`response_time` on first
dispatch, advancing the clock, appending a Gantt entry, and on completion
computing `completion_time`, `turnaround_time` and `waiting_time` and
appending the process to the completed list.  Returns the new scheduler
state, the updated process and the completion flag. -/
def execute (s : SchedState) (p : Process) (time_slice : Int) :
    SchedState × Process × Bool :=
  let p1 := { p with state := "RUNNING" }
  let p2 :=
    if p1.start_time = -1 then
      { p1 with start_time := s.current_time,
                response_time := s.current_time - p1.arrival_time }
    else p1
  let execution_time := min time_slice p2.remaining_time
  let p3 := { p2 with remaining_time := p2.remaining_time - execution_time }
  let s1 := { s with current_time := s.current_time + execution_time }
  let s2 := { s1 with gantt := s1.gantt ++ [(p3.pid, s1.current_time - execution_time, s1.current_time)] }
  if p3.remaining_time = 0 then
    let p4 := { p3 with
      state := "TERMINATED"
      completion_time := s2.current_time
      turnaround_time := s2.current_time - p3.arrival_time
      waiting_time := s2.current_time - p3.arrival_time - p3.burst_time }
    ({ s2 with completed := s2.completed ++ [p4] }, p4, true)
  else (s2, p3, false)

/-- Stable insertion of a process into a list sorted by arrival time:
earlier elements with the same arrival time stay in front. -/
def insertByArrival (p : Process) : List Process → List Process
  | [] => [p]
  | q :: rest =>
    if q.arrival_time < p.arrival_time then q :: insertByArrival p rest
    else p :: q :: rest

/-- `sorted(processes, key=lambda p: p.arrival_time)` in `schedule`:
Python's sort is stable, so any stable sort by arrival time is an exact
model; insertion sort is used here. -/
def sortByArrival : List Process → List Process
  | [] => []
  | p :: rest => insertByArrival p (sortByArrival rest)

/-- The admission loop at the top of `Scheduler.schedule`: add every
not-yet-admitted process whose arrival time has passed.  The sorted list
plus moving index of the source is modelled by the list of still-pending
processes in sorted order. -/
def admitLoop (s : SchedState) (pending : List Process) : SchedState × List Process :=
  match pending with
  | [] => (s, [])
  | p :: rest =>
    if p.arrival_time ≤ s.current_time then admitLoop (addProcess s p) rest
    else (s, p :: rest)

/-- Result of one iteration of the `while` loop in `Scheduler.schedule`:
either the loop condition failed (`done`) or the loop body produced a new
state and pending list (`next`). -/
inductive StepResult where
  | done (s : SchedState)
  | next (s : SchedState) (pending : List Process)
deriving Repr, DecidableEq

/-- One iteration of the `while` loop of `Scheduler.schedule`: admit
arrived processes; if nothing is ready jump to the next arrival; otherwise
dispatch per policy — RR runs one quantum and re-admits an unfinished
process immediately, the other policies run to completion. -/
def scheduleStep (s : SchedState) (pending : List Process) : StepResult :=
  if pending.isEmpty && s.ready_queue.isEmpty then .done s
  else
    let s1 := (admitLoop s pending).1
    let pending1 := (admitLoop s pending).2
    if s1.ready_queue.isEmpty then
      match pending1 with
      | p :: _ => .next { s1 with current_time := p.arrival_time } pending1
      | [] => .next s1 pending1
    else
      match getNext s1 with
      | none => .next s1 pending1
      | some ps =>
        if ps.2.algorithm == "RR" then
          let r := execute ps.2 ps.1 ps.2.time_quantum
          if r.2.2 then .next r.1 pending1
          else .next (addProcess r.1 r.2.1) pending1
        else .next (execute ps.2 ps.1 ps.1.remaining_time).1 pending1

/-- The `while` loop of `Scheduler.schedule`, driven by explicit fuel;
`none` means the fuel ran out before the loop condition failed. -/
def scheduleLoop : Nat → SchedState → List Process → Option SchedState
  | 0, _, _ => none
  | fuel + 1, s, pending =>
    match scheduleStep s pending with
    | .done s' => some s'
    | .next s' pending' => scheduleLoop fuel s' pending'

/-- `Scheduler.schedule`: sort by arrival time, then run the driving loop. -/
def schedule (fuel : Nat) (s : SchedState) (processes : List Process) : Option SchedState :=
  scheduleLoop fuel s (sortByArrival processes)

/-- Modelled from the spec's words for claim C2 (the code differs): in the
RR branch, when the slice ends unfinished, processes that arrived during or
exactly at the end of the slice are admitted *first*, and only then is the
preempted process re-admitted to the tail. -/
def scheduleStepClaim (s : SchedState) (pending : List Process) : StepResult :=
  if pending.isEmpty && s.ready_queue.isEmpty then .done s
  else
    let s1 := (admitLoop s pending).1
    let pending1 := (admitLoop s pending).2
    if s1.ready_queue.isEmpty then
      match pending1 with
      | p :: _ => .next { s1 with current_time := p.arrival_time } pending1
      | [] => .next s1 pending1
    else
      match getNext s1 with
      | none => .next s1 pending1
      | some ps =>
        if ps.2.algorithm == "RR" then
          let r := execute ps.2 ps.1 ps.2.time_quantum
          if r.2.2 then .next r.1 pending1
          else
            .next (addProcess (admitLoop r.1 pending1).1 r.2.1) (admitLoop r.1 pending1).2
        else .next (execute ps.2 ps.1 ps.1.remaining_time).1 pending1

/-- The loop of the C2 spec-described variant. -/
def scheduleLoopClaim : Nat → SchedState → List Process → Option SchedState
  | 0, _, _ => none
  | fuel + 1, s, pending =>
    match scheduleStepClaim s pending with
    | .done s' => some s'
    | .next s' pending' => scheduleLoopClaim fuel s' pending'

/-- Entry point of the C2 spec-described variant. -/
def scheduleClaim (fuel : Nat) (s : SchedState) (processes : List Process) :
    Option SchedState :=
  scheduleLoopClaim fuel s (sortByArrival processes)

lemma getD_mem_or {α : Type} [Inhabited α] (l : List α) (i : Nat) :
    l.getD i default ∈ l ∨ l.getD i default = default := by
  by_cases h : i < l.length
  · left
    rw [List.getD_eq_getElem l default h]
    exact l.getElem_mem h
  · right
    exact List.getD_eq_default l default (by omega)

lemma siftdownLoop_self (heap : List ReadyItem) (e : ReadyItem) (n : Nat) :
    siftdownLoop heap e n n = heap.set n e := by
  rw [siftdownLoop]
  simp

lemma heappush_nil (e : ReadyItem) : heappush [] e = [e] := by
  rw [heappush]
  simpa using siftdownLoop_self [e] e 0

lemma heappush_one (e1 e2 : ReadyItem) :
    heappush [e1] e2 = if e2.lt e1 then [e2, e1] else [e1, e2] := by
  rw [heappush]
  show siftdownLoop [e1, e2] e2 0 1 = _
  rw [siftdownLoop]
  by_cases hlt : e2.lt e1 = true
  · have : ([e1, e2].getD 0 default) = e1 := rfl
    rw [dif_pos (by omega), if_pos (by simpa [this] using hlt)]
    simpa [hlt] using siftdownLoop_self [e1, e1] e2 0
  · rw [dif_pos (by omega), if_neg (by simpa using hlt)]
    simp [hlt]

lemma heappop_one (e : ReadyItem) : heappop [e] = some (e, []) := by
  rw [heappop]
  simp

lemma heappop_two (e1 e2 : ReadyItem) : heappop [e1, e2] = some (e1, [e2]) := by
  rw [heappop]
  show some (e1, siftupLoop ([e1].set 0 e2) e2 ([e1] : List ReadyItem).length 0 0) = _
  rw [siftupLoop]
  rw [dif_neg (by simp)]
  simpa using siftdownLoop_self [e2] e2 0

lemma mem_siftdownLoop (newitem : ReadyItem) :
    ∀ (pos : Nat) (heap : List ReadyItem) (startpos : Nat) (x : ReadyItem),
      x ∈ siftdownLoop heap newitem startpos pos →
        x ∈ heap ∨ x = newitem ∨ x = default := by
  intro pos
  induction pos using Nat.strong_induction_on with
  | _ pos ih =>
    intro heap startpos x hx
    rw [siftdownLoop] at hx
    by_cases hlt : startpos < pos
    · rw [dif_pos hlt] at hx
      by_cases hc : newitem.lt (heap.getD ((pos - 1) / 2) default) = true
      · rw [if_pos hc] at hx
        rcases ih ((pos - 1) / 2) (by omega) _ _ _ hx with hmem | rfl | rfl
        · rcases List.mem_or_eq_of_mem_set hmem with hmem' | rfl
          · exact Or.inl hmem'
          · rcases getD_mem_or heap ((pos - 1) / 2) with hmem' | heq
            · exact Or.inl hmem'
            · exact Or.inr (Or.inr heq)
        · exact Or.inr (Or.inl rfl)
        · exact Or.inr (Or.inr rfl)
      · rw [if_neg hc] at hx
        rcases List.mem_or_eq_of_mem_set hx with hmem | rfl
        · exact Or.inl hmem
        · exact Or.inr (Or.inl rfl)
    · rw [dif_neg hlt] at hx
      rcases List.mem_or_eq_of_mem_set hx with hmem | rfl
      · exact Or.inl hmem
      · exact Or.inr (Or.inl rfl)

lemma mem_siftupLoop (newitem : ReadyItem) (endpos : Nat) :
    ∀ (fuel pos : Nat), pos + fuel = endpos →
      ∀ (heap : List ReadyItem) (startpos : Nat) (x : ReadyItem),
        x ∈ siftupLoop heap newitem endpos startpos pos →
          x ∈ heap ∨ x = newitem ∨ x = default := by
  intro fuel
  induction fuel using Nat.strong_induction_on with
  | _ fuel ih =>
    intro pos hpe heap startpos x hx
    rw [siftupLoop] at hx
    by_cases h1 : 2 * pos + 1 < endpos
    · rw [dif_pos h1] at hx
      have hstep : ∀ (cp : Nat), pos < cp → cp < endpos →
          x ∈ siftupLoop (heap.set pos (heap.getD cp default)) newitem endpos startpos cp →
          x ∈ heap ∨ x = newitem ∨ x = default := by
        intro cp hcp1 hcp2 hx'
        rcases ih (endpos - cp) (by omega) cp (by omega) _ _ _ hx' with hmem | rfl | rfl
        · rcases List.mem_or_eq_of_mem_set hmem with hmem' | rfl
          · exact Or.inl hmem'
          · rcases getD_mem_or heap cp with hmem' | heq
            · exact Or.inl hmem'
            · exact Or.inr (Or.inr heq)
        · exact Or.inr (Or.inl rfl)
        · exact Or.inr (Or.inr rfl)
      by_cases hc : 2 * pos + 2 < endpos ∧
          ¬((heap.getD (2 * pos + 1) default).lt (heap.getD (2 * pos + 2) default) = true)
      · rw [dif_pos hc] at hx
        exact hstep (2 * pos + 2) (by omega) (by omega) hx
      · rw [dif_neg hc] at hx
        exact hstep (2 * pos + 1) (by omega) (by omega) hx
    · rw [dif_neg h1] at hx
      rcases mem_siftdownLoop newitem pos _ startpos x hx with hmem | rfl | rfl
      · rcases List.mem_or_eq_of_mem_set hmem with hmem' | rfl
        · exact Or.inl hmem'
        · exact Or.inr (Or.inl rfl)
      · exact Or.inr (Or.inl rfl)
      · exact Or.inr (Or.inr rfl)

lemma mem_heappush (heap : List ReadyItem) (item x : ReadyItem)
    (hx : x ∈ heappush heap item) : x ∈ heap ∨ x = item ∨ x = default := by
  rcases mem_siftdownLoop item _ _ _ _ hx with hmem | rfl | rfl
  · rcases List.mem_append.1 hmem with hmem' | hmem'
    · exact Or.inl hmem'
    · exact Or.inr (Or.inl (by simpa using hmem'))
  · exact Or.inr (Or.inl rfl)
  · exact Or.inr (Or.inr rfl)

lemma heappop_fst_mem (heap : List ReadyItem) (it : ReadyItem) (h' : List ReadyItem)
    (h : heappop heap = some (it, h')) : it ∈ heap := by
  rw [heappop] at h
  cases hlast : heap.getLast? with
  | none => rw [hlast] at h; exact absurd h (by simp)
  | some lastelt =>
    rw [hlast] at h
    dsimp only at h
    by_cases hemp : heap.dropLast.isEmpty
    · rw [if_pos hemp] at h
      simp only [Option.some.injEq, Prod.mk.injEq] at h
      rw [← h.1]
      exact List.mem_of_mem_getLast? hlast
    · rw [if_neg hemp] at h
      simp only [Option.some.injEq, Prod.mk.injEq] at h
      rw [← h.1]
      have hne : heap.dropLast ≠ [] := by simpa [List.isEmpty_iff] using hemp
      cases hd : heap.dropLast with
      | nil => exact absurd hd hne
      | cons y t =>
        have : y ∈ heap.dropLast := by simp [hd]
        have hy : y ∈ heap := List.mem_of_mem_dropLast this
        simpa [hd] using hy

lemma heappop_snd_mem (heap : List ReadyItem) (it : ReadyItem) (h' : List ReadyItem)
    (h : heappop heap = some (it, h')) :
    ∀ x ∈ h', x ∈ heap ∨ x = default := by
  intro x hx
  rw [heappop] at h
  cases hlast : heap.getLast? with
  | none => rw [hlast] at h; exact absurd h (by simp)
  | some lastelt =>
    rw [hlast] at h
    dsimp only at h
    have hlmem : lastelt ∈ heap := List.mem_of_mem_getLast? hlast
    by_cases hemp : heap.dropLast.isEmpty
    · rw [if_pos hemp] at h
      simp only [Option.some.injEq, Prod.mk.injEq] at h
      rw [← h.2] at hx
      exact absurd hx (by simp [List.isEmpty_iff.1 hemp])
    · rw [if_neg hemp] at h
      simp only [Option.some.injEq, Prod.mk.injEq] at h
      rw [← h.2] at hx
      rcases mem_siftupLoop lastelt _ (heap.dropLast.length - 0) 0 (by omega) _ _ _ hx with
        hmem | rfl | rfl
      · rcases List.mem_or_eq_of_mem_set hmem with hmem' | rfl
        · exact Or.inl (List.mem_of_mem_dropLast hmem')
        · exact Or.inl hlmem
      · exact Or.inl hlmem
      · exact Or.inr rfl

lemma sjf_two_dispatch (q : Int) (p1 p2 : Process) :
    getNext (addProcess (addProcess (mkScheduler "SJF" q) p1) p2) =
      if ReadyItem.lt (.keyed p2.remaining_time p2.arrival_time { p2 with state := "READY" })
          (.keyed p1.remaining_time p1.arrival_time { p1 with state := "READY" }) then
        some ({ p2 with state := "READY" },
          { mkScheduler "SJF" q with
              ready_queue := [.keyed p1.remaining_time p1.arrival_time { p1 with state := "READY" }] })
      else
        some ({ p1 with state := "READY" },
          { mkScheduler "SJF" q with
              ready_queue := [.keyed p2.remaining_time p2.arrival_time { p2 with state := "READY" }] }) := by
  have h1 : addProcess (mkScheduler "SJF" q) p1 =
      { mkScheduler "SJF" q with
          ready_queue := [.keyed p1.remaining_time p1.arrival_time { p1 with state := "READY" }] } := by
    simp [addProcess, mkScheduler, heappush_nil]
  rw [h1]
  have h2 : addProcess
      { mkScheduler "SJF" q with
          ready_queue := [.keyed p1.remaining_time p1.arrival_time { p1 with state := "READY" }] } p2 =
      { mkScheduler "SJF" q with
          ready_queue :=
            heappush [.keyed p1.remaining_time p1.arrival_time { p1 with state := "READY" }]
              (.keyed p2.remaining_time p2.arrival_time { p2 with state := "READY" }) } := by
    simp [addProcess, mkScheduler]
  rw [h2, heappush_one]
  by_cases hlt : ReadyItem.lt
      (.keyed p2.remaining_time p2.arrival_time { p2 with state := "READY" })
      (.keyed p1.remaining_time p1.arrival_time { p1 with state := "READY" }) = true
  · rw [if_pos hlt, if_pos hlt]
    simp [getNext, mkScheduler, heappop_two, ReadyItem.proc]
  · rw [if_neg hlt, if_neg hlt]
    simp [getNext, mkScheduler, heappop_two, ReadyItem.proc]

/-- **C4 (counterexample).** Under SJF, two processes with equal
`remaining_time` (5) and equal `arrival_time` (0) are inserted in pid
order 1, 2; the later-inserted process 2 (priority 1 against 5) is
dispatched first, because the heap tuple comparison falls through to
`Process.__lt__` (priority), not to insertion order. -/
theorem sjf_insertion_order_counterexample :
    (mkProcess 1 0 5 4 5).remaining_time = (mkProcess 2 0 5 4 1).remaining_time ∧
    (mkProcess 1 0 5 4 5).arrival_time = (mkProcess 2 0 5 4 1).arrival_time ∧
    (getNext (addProcess (addProcess (mkScheduler "SJF" 2) (mkProcess 1 0 5 4 5))
        (mkProcess 2 0 5 4 1))).map (fun r => r.1.pid) = some 2 := by
  refine ⟨by decide, by decide, ?_⟩
  rw [sjf_two_dispatch]
  norm_num [ReadyItem.lt, mkProcess]

lemma addProcess_fields (s : SchedState) (p : Process) :
    (addProcess s p).algorithm = s.algorithm ∧
    (addProcess s p).time_quantum = s.time_quantum ∧
    (addProcess s p).completed = s.completed ∧
    (addProcess s p).current_time = s.current_time := by
  simp only [addProcess]
  split_ifs <;> simp

lemma admitLoop_fields :
    ∀ (pending : List Process) (s : SchedState),
      (admitLoop s pending).1.algorithm = s.algorithm ∧
      (admitLoop s pending).1.time_quantum = s.time_quantum ∧
      (admitLoop s pending).1.completed = s.completed := by
  intro pending
  induction pending with
  | nil => intro s; simp [admitLoop]
  | cons p rest ih =>
    intro s
    by_cases h : p.arrival_time ≤ s.current_time
    · simp only [admitLoop, if_pos h]
      obtain ⟨h1, h2, h3⟩ := ih (addProcess s p)
      obtain ⟨g1, g2, g3, g4⟩ := addProcess_fields s p
      exact ⟨h1.trans g1, h2.trans g2, h3.trans g3⟩
    · simp [admitLoop, if_neg h]

lemma execute_state_fields (s : SchedState) (p : Process) (t : Int) :
    (execute s p t).1.ready_queue = s.ready_queue ∧
    (execute s p t).1.algorithm = s.algorithm ∧
    (execute s p t).1.time_quantum = s.time_quantum := by
  refine ⟨?_, ?_, ?_⟩ <;> (simp only [execute]; split <;> split <;> rfl)

/-- **C2 (amended).** Under Round-Robin, when a dispatched process's slice
ends unfinished (`remaining_time > 0`), the preempted process is
re-admitted to the tail of the ready queue immediately, within the same
loop iteration; the still-pending arrivals — including any whose
`arrival_time` is at most the new `current_time`, i.e. processes that
arrived during or exactly at the end of the slice — stay pending and are
admitted only at the start of the next iteration, hence after the
preempted process. -/
theorem rr_requeue_immediately (s : SchedState) (pending pending1 : List Process)
    (s1 : SchedState) (item : ReadyItem) (rest : List ReadyItem)
    (halg : s.algorithm = "RR")
    (hadq : admitLoop s pending = (s1, pending1))
    (hq : s1.ready_queue = item :: rest)
    (hex : (execute { s1 with ready_queue := rest } item.proc s1.time_quantum).2.2 = false) :
    scheduleStep s pending =
      .next { (execute { s1 with ready_queue := rest } item.proc s1.time_quantum).1 with
                ready_queue := rest ++ [.plain
                  { (execute { s1 with ready_queue := rest } item.proc
                      s1.time_quantum).2.1 with state := "READY" }] }
        pending1 := by
  have hs1alg : s1.algorithm = "RR" := by
    have h := (admitLoop_fields pending s).1
    rw [hadq] at h
    exact h.trans halg
  have hcond : (pending.isEmpty && s.ready_queue.isEmpty) = false := by
    cases pending with
    | nil =>
      have heq : admitLoop s [] = (s, []) := rfl
      rw [heq] at hadq
      have hs : s1 = s := (congrArg Prod.fst hadq).symm
      rw [← hs, hq]
      simp
    | cons a b => simp
  have hgn : getNext s1 = some (item.proc, { s1 with ready_queue := rest }) := by
    rw [getNext.eq_def, hq, hs1alg]
    simp [ReadyItem.proc]
  rw [scheduleStep, hcond]
  simp only [Bool.false_eq_true, if_false, hadq]
  rw [hq]
  simp only [List.isEmpty_cons, if_false]
  simp only [Bool.false_eq_true, if_false, hgn]
  rw [hs1alg] at hex ⊢
  have hfld := execute_state_fields
    { algorithm := "RR", time_quantum := s1.time_quantum, ready_queue := rest,
      current_time := s1.current_time, completed := s1.completed, gantt := s1.gantt }
    item.proc s1.time_quantum
  simp only [hex, Bool.false_eq_true, if_false]
  simp only [addProcess, hfld.2.1]
  simp [hfld.1]

/-- Closed instance of `rr_requeue_immediately`: one RR process preempted
at time 2 while another arrival is still pending. -/
theorem rr_requeue_immediately_witness :
    scheduleStep (addProcess (mkScheduler "RR" 2) (mkProcess 1 0 4 1 0)) [mkProcess 2 5 1 1 0] =
      .next
        { algorithm := "RR", time_quantum := 2,
          ready_queue := [.plain
            { pid := 1, arrival_time := 0, burst_time := 4, remaining_time := 2,
              memory_required := 1, priority := 0, start_time := 0, completion_time := 0,
              waiting_time := 0, turnaround_time := 0, response_time := 0,
              memory_allocated := false, memory_start := -1, memory_end := -1,
              state := "READY" }],
          current_time := 2, completed := [], gantt := [(1, 0, 2)] }
        [mkProcess 2 5 1 1 0] := by
  have h := rr_requeue_immediately (addProcess (mkScheduler "RR" 2) (mkProcess 1 0 4 1 0))
    [mkProcess 2 5 1 1 0] [mkProcess 2 5 1 1 0]
    (addProcess (mkScheduler "RR" 2) (mkProcess 1 0 4 1 0))
    (.plain { mkProcess 1 0 4 1 0 with state := "READY" }) []
    (by decide) (by decide) (by decide) (by decide)
  rw [h]
  decide

/-- **C2 (counterexample).** With RR quantum 2, `P1` (arrival 0, burst 4)
and `P2` (arrival 1, burst 1): the code re-admits the preempted `P1`
before admitting `P2` (which arrived during the slice), giving the trace
`(1,0,2),(1,2,4),(2,4,5)`; the spec-described admit-arrivals-first variant
gives `(1,0,2),(2,2,3),(1,3,5)` — the two traces differ, so the claimed
ordering does not hold of the code. -/
theorem rr_arrival_order_counterexample :
    (schedule 6 (mkScheduler "RR" 2) [mkProcess 1 0 4 1 0, mkProcess 2 1 1 1 0]).map (·.gantt)
        = some [(1, 0, 2), (1, 2, 4), (2, 4, 5)] ∧
    (scheduleClaim 6 (mkScheduler "RR" 2) [mkProcess 1 0 4 1 0, mkProcess 2 1 1 1 0]).map (·.gantt)
        = some [(1, 0, 2), (2, 2, 3), (1, 3, 5)] ∧
    (schedule 6 (mkScheduler "RR" 2) [mkProcess 1 0 4 1 0, mkProcess 2 1 1 1 0]).map (·.gantt) ≠
      (scheduleClaim 6 (mkScheduler "RR" 2) [mkProcess 1 0 4 1 0, mkProcess 2 1 1 1 0]).map (·.gantt) := by
  refine ⟨by decide, by decide, by decide⟩

lemma execute_zero (s : SchedState) (p : Process) (h : 1 ≤ p.remaining_time) :
    (execute s p 0).2.2 = false ∧ (execute s p 0).2.1.remaining_time = p.remaining_time := by
  constructor <;>
  · simp only [execute]
    split <;> split <;> rename_i hz <;>
      first
        | rfl
        | (exfalso; simp at hz; omega)
        | (simp; omega)

lemma rr_zero_stuck :
    ∀ (fuel : Nat) (s : SchedState), s.algorithm = "RR" → s.time_quantum = 0 →
      s.ready_queue ≠ [] → (∀ it ∈ s.ready_queue, 1 ≤ it.proc.remaining_time) →
      scheduleLoop fuel s [] = none := by
  intro fuel
  induction fuel with
  | zero => intro s _ _ _ _; rfl
  | succ n ih =>
    intro s halg hquant hne hrem
    cases hq : s.ready_queue with
    | nil => exact absurd hq hne
    | cons item rest =>
      have hadq : admitLoop s [] = (s, []) := rfl
      have hproc : 1 ≤ item.proc.remaining_time := hrem item (by simp [hq])
      have hex2 := execute_zero { s with ready_queue := rest } item.proc hproc
      have hexq := execute_state_fields { s with ready_queue := rest } item.proc
        ({ s with ready_queue := rest } : SchedState).time_quantum
      have hstep := rr_requeue_immediately s [] [] s item rest halg hadq hq
        (by simpa [hquant] using hex2.1)
      have hfld := execute_state_fields { s with ready_queue := rest } item.proc s.time_quantum
      rw [scheduleLoop, hstep]
      apply ih
      · simpa using hfld.2.1.trans halg
      · simpa using hfld.2.2.trans hquant
      · simp
      · intro it hit
        rcases List.mem_append.1 hit with hmem | hmem
        · exact hrem it (by simp [hq, hmem])
        · have : it = .plain { (execute { s with ready_queue := rest } item.proc
              s.time_quantum).2.1 with state := "READY" } := by simpa using hmem
          rw [this]
          show 1 ≤ (execute { s with ready_queue := rest } item.proc s.time_quantum).2.1.remaining_time
          simp only [hquant] at hex2 ⊢
          rw [hex2.2]
          exact hproc

/-- **C3.** Neither constructor rejects a non-positive configuration:
`Scheduler("RR", 0)` and `MemoryManager(0)` are built without error, and
with `time_quantum = 0` the Round-Robin `schedule` never terminates on a
single process of burst 1 — every iteration runs a zero-length slice and
re-queues the process, so the driving loop returns `none` for every fuel
bound. -/
theorem zero_quantum_accepted_and_diverges :
    (mkScheduler "RR" 0).time_quantum = 0 ∧
    (mkMemoryManager 0 "First-Fit").total_memory = 0 ∧
    ∀ fuel : Nat, schedule fuel (mkScheduler "RR" 0) [mkProcess 1 0 1 1 0] = none := by
  refine ⟨rfl, rfl, ?_⟩
  intro fuel
  cases fuel with
  | zero => rfl
  | succ n =>
    have h1 : scheduleStep (mkScheduler "RR" 0) [mkProcess 1 0 1 1 0] =
        .next
          { algorithm := "RR", time_quantum := 0,
            ready_queue := [.plain
              { pid := 1, arrival_time := 0, burst_time := 1, remaining_time := 1,
                memory_required := 1, priority := 0, start_time := 0, completion_time := 0,
                waiting_time := 0, turnaround_time := 0, response_time := 0,
                memory_allocated := false, memory_start := -1, memory_end := -1,
                state := "READY" }],
            current_time := 0, completed := [], gantt := [(1, 0, 0)] }
          [] := by decide
    show scheduleLoop (n + 1) (mkScheduler "RR" 0) (sortByArrival [mkProcess 1 0 1 1 0]) = none
    have hsort : sortByArrival [mkProcess 1 0 1 1 0] = [mkProcess 1 0 1 1 0] := rfl
    rw [hsort, scheduleLoop, h1]
    exact rr_zero_stuck n _ rfl rfl (by simp) (by decide)

/-- A process's `response_time` is consistent with its `start_time`:
either it has not been dispatched yet (`start_time = -1`), or
`response_time = start_time - arrival_time`. -/
def PInv (p : Process) : Prop :=
  p.start_time = -1 ∨ p.response_time = p.start_time - p.arrival_time

/-- The metric conservation equations of a completed process. -/
def DoneInv (p : Process) : Prop :=
  p.turnaround_time = p.waiting_time + p.burst_time ∧
    p.response_time = p.start_time - p.arrival_time

/-- Loop invariant of `schedule`: every queued or pending process is
response-consistent, every completed process satisfies the conservation
equations. -/
def StateInv (s : SchedState) (pending : List Process) : Prop :=
  (∀ it ∈ s.ready_queue, PInv it.proc) ∧ (∀ p ∈ s.completed, DoneInv p) ∧
    (∀ p ∈ pending, PInv p)

lemma PInv_default : PInv (default : Process) := Or.inr (by decide)

lemma PInv_default_item : PInv (default : ReadyItem).proc := PInv_default

lemma execute_spec (s : SchedState) (p : Process) (slice : Int)
    (s' : SchedState) (p' : Process) (c : Bool)
    (hP : PInv p) (he : execute s p slice = (s', p', c)) :
    PInv p' ∧ (c = true → DoneInv p' ∧ s'.completed = s.completed ++ [p']) ∧
    (c = false → s'.completed = s.completed) := by
  simp only [execute] at he
  split at he <;> rename_i h1 <;> split at he <;> rename_i h2 <;>
    (simp only [Prod.mk.injEq] at he
     obtain ⟨hs', hp', hc⟩ := he
     subst hs'
     subst hp'
     subst hc)
  · refine ⟨Or.inr (by dsimp), ⟨fun _ => ⟨⟨by dsimp; ring, by dsimp⟩, rfl⟩, fun hc => by simp at hc⟩⟩
  · exact ⟨Or.inr (by dsimp), fun hc => by simp at hc, fun _ => rfl⟩
  · have h1' : ¬(p.start_time = -1) := by simpa using h1
    have hre : p.response_time = p.start_time - p.arrival_time := hP.resolve_left h1'
    refine ⟨Or.inr (by dsimp; exact hre), ⟨fun _ => ⟨⟨by dsimp; ring, by dsimp; exact hre⟩, rfl⟩,
      fun hc => by simp at hc⟩⟩
  · have h1' : ¬(p.start_time = -1) := by simpa using h1
    have hre : p.response_time = p.start_time - p.arrival_time := hP.resolve_left h1'
    exact ⟨Or.inr (by dsimp; exact hre), fun hc => by simp at hc, fun _ => rfl⟩

lemma PInv_set_state (p : Process) (st : String) : PInv { p with state := st } ↔ PInv p :=
  Iff.rfl

lemma addProcess_inv (s : SchedState) (p : Process)
    (hq : ∀ it ∈ s.ready_queue, PInv it.proc) (hp : PInv p) :
    ∀ it ∈ (addProcess s p).ready_queue, PInv it.proc := by
  intro it hit
  simp only [addProcess] at hit
  split_ifs at hit
  · rcases List.mem_append.1 hit with hm | hm
    · exact hq it hm
    · simp only [List.mem_singleton] at hm
      subst hm
      exact hp
  · rcases mem_heappush _ _ _ hit with hm | rfl | rfl
    · exact hq it hm
    · exact hp
    · exact PInv_default_item
  · rcases mem_heappush _ _ _ hit with hm | rfl | rfl
    · exact hq it hm
    · exact hp
    · exact PInv_default_item
  · rcases List.mem_append.1 hit with hm | hm
    · exact hq it hm
    · simp only [List.mem_singleton] at hm
      subst hm
      exact hp
  · exact hq it hit

lemma admitLoop_inv :
    ∀ (pending : List Process) (s : SchedState), StateInv s pending →
      StateInv (admitLoop s pending).1 (admitLoop s pending).2 := by
  intro pending
  induction pending with
  | nil => intro s h; exact ⟨h.1, h.2.1, fun p hp => (List.not_mem_nil p hp).elim⟩
  | cons p rest ih =>
    intro s h
    obtain ⟨hq, hc, hp⟩ := h
    by_cases harr : p.arrival_time ≤ s.current_time
    · simp only [admitLoop, if_pos harr]
      refine ih (addProcess s p) ⟨?_, ?_, ?_⟩
      · exact addProcess_inv s p hq (hp p (by simp))
      · rw [(addProcess_fields s p).2.2.1]
        exact hc
      · intro x hx
        exact hp x (by simp [hx])
    · simp only [admitLoop, if_neg harr]
      exact ⟨hq, hc, hp⟩

lemma getNext_spec (s : SchedState) (p : Process) (s' : SchedState)
    (h : getNext s = some (p, s')) :
    (∃ it ∈ s.ready_queue, p = it.proc) ∧
    (∀ x ∈ s'.ready_queue, x ∈ s.ready_queue ∨ x = default) ∧
    s'.completed = s.completed ∧ s'.algorithm = s.algorithm ∧
    s'.time_quantum = s.time_quantum := by
  cases hqq : s.ready_queue with
  | nil => rw [getNext.eq_def, hqq] at h; exact absurd h (by simp)
  | cons x rest =>
    rw [getNext.eq_def, hqq] at h
    dsimp only at h
    by_cases halg : (s.algorithm == "SJF" || s.algorithm == "Priority") = true
    · rw [if_pos halg] at h
      cases hpop : heappop (x :: rest) with
      | none => rw [hpop] at h; exact absurd h (by simp)
      | some pr =>
        rw [hpop] at h
        obtain ⟨it, h2⟩ := pr
        simp only [Option.some.injEq, Prod.mk.injEq] at h
        obtain ⟨hp1, hs1⟩ := h
        subst hp1
        subst hs1
        refine ⟨⟨it, heappop_fst_mem _ _ _ hpop, rfl⟩, ?_, rfl, rfl, rfl⟩
        intro y hy
        exact heappop_snd_mem _ _ _ hpop y hy
    · rw [if_neg halg] at h
      simp only [Option.some.injEq, Prod.mk.injEq] at h
      obtain ⟨hp1, hs1⟩ := h
      subst hp1
      subst hs1
      refine ⟨⟨x, by simp, rfl⟩, ?_, rfl, rfl, rfl⟩
      intro y hy
      exact Or.inl (by simp [show y ∈ rest from hy])

lemma scheduleStep_done_eq (s : SchedState) (pending : List Process) (s₀ : SchedState)
    (h : scheduleStep s pending = .done s₀) : s₀ = s := by
  simp only [scheduleStep] at h
  split at h
  · injection h with h'
    exact h'.symm
  · split at h
    · split at h <;> exact absurd h (by simp)
    · split at h
      · exact absurd h (by simp)
      · split at h
        · split at h <;> exact absurd h (by simp)
        · exact absurd h (by simp)

lemma scheduleStep_next_inv (s : SchedState) (pending : List Process)
    (s' : SchedState) (pending' : List Process) (hInv : StateInv s pending)
    (h : scheduleStep s pending = .next s' pending') : StateInv s' pending' := by
  have hadm := admitLoop_inv pending s hInv
  simp only [scheduleStep] at h
  split at h
  · exact absurd h (by simp)
  · split at h
    · split at h
      · injection h with h1 h2
        subst h1
        subst h2
        exact ⟨hadm.1, hadm.2.1, hadm.2.2⟩
      · injection h with h1 h2
        subst h1
        subst h2
        exact hadm
    · split at h
      · injection h with h1 h2
        subst h1
        subst h2
        exact hadm
      · rename_i ps hgn
        obtain ⟨⟨it, hitmem, hitproc⟩, hqsub, hcomp, halg2, hquant2⟩ :=
          getNext_spec (admitLoop s pending).1 ps.1 ps.2 (by simpa using hgn)
        have hPit : PInv ps.1 := by rw [hitproc]; exact hadm.1 it hitmem
        have hqinv : ∀ x ∈ ps.2.ready_queue, PInv x.proc := by
          intro x hx
          rcases hqsub x hx with hm | rfl
          · exact hadm.1 x hm
          · exact PInv_default_item
        have hcinv : ∀ p ∈ ps.2.completed, DoneInv p := by
          rw [hcomp]; exact hadm.2.1
        split at h
        · -- RR branch
          have hespec := execute_spec ps.2 ps.1 ps.2.time_quantum
            (execute ps.2 ps.1 ps.2.time_quantum).1
            (execute ps.2 ps.1 ps.2.time_quantum).2.1
            (execute ps.2 ps.1 ps.2.time_quantum).2.2 hPit rfl
          have hefld := execute_state_fields ps.2 ps.1 ps.2.time_quantum
          split at h
          · rename_i hdone
            injection h with h1 h2
            subst h1
            subst h2
            refine ⟨?_, ?_, hadm.2.2⟩
            · rw [hefld.1]
              exact hqinv
            · rw [hespec.2.1 hdone |>.2]
              intro p hp
              rcases List.mem_append.1 hp with hm | hm
              · exact hcinv p hm
              · simp only [List.mem_singleton] at hm
                subst hm
                exact (hespec.2.1 hdone).1
          · rename_i hndone
            injection h with h1 h2
            subst h1
            subst h2
            have hc : (execute ps.2 ps.1 ps.2.time_quantum).2.2 = false := by
              simpa using hndone
            refine ⟨?_, ?_, hadm.2.2⟩
            · apply addProcess_inv
              · rw [hefld.1]
                exact hqinv
              · exact hespec.1
            · rw [(addProcess_fields _ _).2.2.1, hespec.2.2 hc]
              exact hcinv
        · -- non-preemptive branch
          have hespec := execute_spec ps.2 ps.1 ps.1.remaining_time
            (execute ps.2 ps.1 ps.1.remaining_time).1
            (execute ps.2 ps.1 ps.1.remaining_time).2.1
            (execute ps.2 ps.1 ps.1.remaining_time).2.2 hPit rfl
          have hefld := execute_state_fields ps.2 ps.1 ps.1.remaining_time
          injection h with h1 h2
          subst h1
          subst h2
          refine ⟨?_, ?_, hadm.2.2⟩
          · rw [hefld.1]
            exact hqinv
          · cases hc : (execute ps.2 ps.1 ps.1.remaining_time).2.2 with
            | true =>
              rw [hespec.2.1 hc |>.2]
              intro p hp
              rcases List.mem_append.1 hp with hm | hm
              · exact hcinv p hm
              · simp only [List.mem_singleton] at hm
                subst hm
                exact (hespec.2.1 hc).1
            | false =>
              rw [hespec.2.2 hc]
              exact hcinv

lemma scheduleLoop_inv :
    ∀ (fuel : Nat) (s : SchedState) (pending : List Process) (s' : SchedState),
      StateInv s pending → scheduleLoop fuel s pending = some s' →
      ∀ p ∈ s'.completed, DoneInv p := by
  intro fuel
  induction fuel with
  | zero => intro s pending s' _ h; exact absurd h (by simp [scheduleLoop])
  | succ n ih =>
    intro s pending s' hInv h
    rw [scheduleLoop] at h
    cases hstep : scheduleStep s pending with
    | done s₀ =>
      rw [hstep] at h
      simp only [Option.some.injEq] at h
      subst h
      rw [scheduleStep_done_eq _ _ _ hstep]
      exact hInv.2.1
    | next s₁ p₁ =>
      rw [hstep] at h
      exact ih _ _ _ (scheduleStep_next_inv _ _ _ _ hInv hstep) h

lemma mem_insertByArrival :
    ∀ (l : List Process) (p x : Process), x ∈ insertByArrival p l → x = p ∨ x ∈ l := by
  intro l
  induction l with
  | nil => intro p x hx; simpa [insertByArrival] using hx
  | cons q rest ih =>
    intro p x hx
    by_cases hq : q.arrival_time < p.arrival_time
    · simp only [insertByArrival, if_pos hq] at hx
      rcases List.mem_cons.1 hx with rfl | hx'
      · exact Or.inr (by simp)
      · rcases ih p x hx' with rfl | hm
        · exact Or.inl rfl
        · exact Or.inr (by simp [hm])
    · simp only [insertByArrival, if_neg hq] at hx
      rcases List.mem_cons.1 hx with rfl | hx'
      · exact Or.inl rfl
      · exact Or.inr hx'

lemma mem_sortByArrival :
    ∀ (l : List Process) (x : Process), x ∈ sortByArrival l → x ∈ l := by
  intro l
  induction l with
  | nil => intro x hx; simpa [sortByArrival] using hx
  | cons p rest ih =>
    intro x hx
    simp only [sortByArrival] at hx
    rcases mem_insertByArrival _ p x hx with rfl | hm
    · simp
    · exact List.mem_cons.2 (Or.inr (ih x hm))

/-- **C9.** For every process that `schedule` runs to completion — under
any scheduling policy, any time quantum and any fresh input processes
(`start_time` still at its `-1` sentinel) — the computed metrics satisfy
`turnaround_time = waiting_time + burst_time` and
`response_time = start_time - arrival_time`. -/
theorem conservation (fuel : Nat) (alg : String) (q : Int)
    (procs : List Process) (s' : SchedState)
    (hfresh : ∀ p ∈ procs, p.start_time = -1)
    (h : schedule fuel (mkScheduler alg q) procs = some s') :
    ∀ p ∈ s'.completed,
      p.turnaround_time = p.waiting_time + p.burst_time ∧
      p.response_time = p.start_time - p.arrival_time := by
  have hInv : StateInv (mkScheduler alg q) (sortByArrival procs) := by
    refine ⟨?_, ?_, ?_⟩
    · intro it hit
      exact absurd hit (by simp [mkScheduler])
    · intro p hp
      exact absurd hp (by simp [mkScheduler])
    · intro p hp
      exact Or.inl (hfresh p (mem_sortByArrival procs p hp))
  intro p hp
  exact scheduleLoop_inv fuel _ _ s' hInv h p hp

/-- Closed instance of `conservation` on a two-process FCFS run. -/
theorem conservation_witness :
    schedule 4 (mkScheduler "FCFS" 2) [mkProcess 1 0 5 4 0, mkProcess 2 1 3 4 0] =
      some
        { algorithm := "FCFS", time_quantum := 2, ready_queue := [], current_time := 8,
          completed := [
            { pid := 1, arrival_time := 0, burst_time := 5, remaining_time := 0,
              memory_required := 4, priority := 0, start_time := 0, completion_time := 5,
              waiting_time := 0, turnaround_time := 5, response_time := 0,
              memory_allocated := false, memory_start := -1, memory_end := -1,
              state := "TERMINATED" },
            { pid := 2, arrival_time := 1, burst_time := 3, remaining_time := 0,
              memory_required := 4, priority := 0, start_time := 5, completion_time := 8,
              waiting_time := 4, turnaround_time := 7, response_time := 4,
              memory_allocated := false, memory_start := -1, memory_end := -1,
              state := "TERMINATED" }],
          gantt := [(1, 0, 5), (2, 5, 8)] } ∧
    ∀ p ∈ [
        ({ pid := 1, arrival_time := 0, burst_time := 5, remaining_time := 0,
           memory_required := 4, priority := 0, start_time := 0, completion_time := 5,
           waiting_time := 0, turnaround_time := 5, response_time := 0,
           memory_allocated := false, memory_start := -1, memory_end := -1,
           state := "TERMINATED" } : Process),
        { pid := 2, arrival_time := 1, burst_time := 3, remaining_time := 0,
          memory_required := 4, priority := 0, start_time := 5, completion_time := 8,
          waiting_time := 4, turnaround_time := 7, response_time := 4,
          memory_allocated := false, memory_start := -1, memory_end := -1,
          state := "TERMINATED" }],
      p.turnaround_time = p.waiting_time + p.burst_time ∧
      p.response_time = p.start_time - p.arrival_time := by
  constructor
  · decide
  · exact conservation 4 "FCFS" 2 [mkProcess 1 0 5 4 0, mkProcess 2 1 3 4 0]
      { algorithm := "FCFS", time_quantum := 2, ready_queue := [], current_time := 8,
        completed := [
          { pid := 1, arrival_time := 0, burst_time := 5, remaining_time := 0,
            memory_required := 4, priority := 0, start_time := 0, completion_time := 5,
            waiting_time := 0, turnaround_time := 5, response_time := 0,
            memory_allocated := false, memory_start := -1, memory_end := -1,
            state := "TERMINATED" },
          { pid := 2, arrival_time := 1, burst_time := 3, remaining_time := 0,
            memory_required := 4, priority := 0, start_time := 5, completion_time := 8,
            waiting_time := 4, turnaround_time := 7, response_time := 4,
            memory_allocated := false, memory_start := -1, memory_end := -1,
            state := "TERMINATED" }],
        gantt := [(1, 0, 5), (2, 5, 8)] }
      (by decide) (by decide)

/-- The strict order `<` of the heap tuples, as a proposition on the two
integer keys and the tie-breaking priorities. -/
lemma lt_keyed_iff (k1 k2 : Int) (q : Process) (l1 l2 : Int) (r : Process) :
    (ReadyItem.keyed k1 k2 q).lt (ReadyItem.keyed l1 l2 r) = true ↔
      k1 < l1 ∨ (k1 = l1 ∧ (k2 < l2 ∨ (k2 = l2 ∧ q.priority < r.priority))) := by
  simp [ReadyItem.lt]

lemma lt_self_false (a : ReadyItem) : a.lt a = false := by
  cases a <;> simp [ReadyItem.lt]

lemma lt_negtrans_keyed (a1 a2 : Int) (ap : Process) (b1 b2 : Int) (bp : Process)
    (c1 c2 : Int) (cp : Process)
    (h1 : (ReadyItem.keyed b1 b2 bp).lt (ReadyItem.keyed a1 a2 ap) = false)
    (h2 : (ReadyItem.keyed c1 c2 cp).lt (ReadyItem.keyed b1 b2 bp) = false) :
    (ReadyItem.keyed c1 c2 cp).lt (ReadyItem.keyed a1 a2 ap) = false := by
  rw [← Bool.not_eq_true] at h1 h2 ⊢
  rw [lt_keyed_iff] at h1 h2 ⊢
  omega

/-- The binary-heap shape invariant maintained by CPython's `heapq`: no
element compares strictly below its parent. -/
def IsHeap (h : List ReadyItem) : Prop :=
  ∀ j, j < h.length → 0 < j →
    ((h.getD j default).lt (h.getD ((j - 1) / 2) default)) = false

lemma isHeap_root_min (h : List ReadyItem)
    (hk : ∀ it ∈ h, ∃ k1 k2 q, it = ReadyItem.keyed k1 k2 q)
    (hh : IsHeap h) :
    ∀ i, i < h.length → ((h.getD i default).lt (h.getD 0 default)) = false := by
  intro i
  induction i using Nat.strong_induction_on with
  | _ i ih =>
    intro hi
    match i with
    | 0 => exact lt_self_false _
    | i + 1 =>
      have hpar : (i + 1 - 1) / 2 < i + 1 := by omega
      have h1 : ((h.getD (i + 1) default).lt (h.getD ((i + 1 - 1) / 2) default)) = false :=
        hh (i + 1) hi (by omega)
      have h2 : ((h.getD ((i + 1 - 1) / 2) default).lt (h.getD 0 default)) = false :=
        ih _ hpar (by omega)
      have hmem : ∀ j, j < h.length → h.getD j default ∈ h := by
        intro j hj
        rw [List.getD_eq_getElem h default hj]
        exact h.getElem_mem hj
      obtain ⟨x1, x2, xp, hx⟩ := hk _ (hmem (i + 1) hi)
      obtain ⟨y1, y2, yp, hy⟩ := hk _ (hmem ((i + 1 - 1) / 2) (by omega))
      obtain ⟨z1, z2, zp, hz⟩ := hk _ (hmem 0 (by omega))
      rw [hx, hy] at h1
      rw [hy, hz] at h2
      rw [hx, hz]
      exact lt_negtrans_keyed z1 z2 zp y1 y2 yp x1 x2 xp h2 h1

lemma heappop_head (x : ReadyItem) (rest : List ReadyItem) :
    ∃ h', heappop (x :: rest) = some (x, h') := by
  cases rest with
  | nil => exact ⟨[], heappop_one x⟩
  | cons y t =>
    have h1 : (x :: y :: t).getLast? = some ((y :: t).getLast (by simp)) := by
      rw [List.getLast?_eq_getLast _ (by simp), List.getLast_cons (by simp)]
    have h2 : (x :: y :: t).dropLast = x :: (y :: t).dropLast := by
      simp [List.dropLast]
    have key : heappop (x :: y :: t) =
        some (x, siftupLoop ((x :: y :: t).dropLast.set 0 ((y :: t).getLast (by simp)))
          ((y :: t).getLast (by simp)) (x :: y :: t).dropLast.length 0 0) := by
      rw [heappop, h1]
      dsimp only
      rw [if_neg (by rw [h2]; simp)]
      rw [show ((x :: y :: t).dropLast.headD default) = x by rw [h2]; rfl]
    exact ⟨_, key⟩

lemma siftdownLoop_pair (e1 e2 : ReadyItem) :
    siftdownLoop [e1, e2] e2 0 1 = if e2.lt e1 then [e2, e1] else [e1, e2] := by
  rw [siftdownLoop]
  rw [dif_pos (by omega)]
  by_cases hlt : e2.lt e1 = true
  · rw [if_pos (by simpa using hlt), if_pos hlt]
    simpa using siftdownLoop_self [e1, e1] e2 0
  · rw [if_neg (by simpa using hlt), if_neg hlt]
    rfl

lemma heappop_three (e0 e1 e2 : ReadyItem) :
    heappop [e0, e1, e2] = some (e0, if e2.lt e1 then [e2, e1] else [e1, e2]) := by
  rw [heappop]
  rw [show ([e0, e1, e2] : List ReadyItem).getLast? = some e2 from rfl]
  dsimp only
  rw [if_neg (by simp [List.dropLast])]
  have hd : ([e0, e1, e2] : List ReadyItem).dropLast = [e0, e1] := by
    simp [List.dropLast]
  rw [hd]
  have hsift : siftupLoop ([e0, e1].set 0 e2) e2 ([e0, e1] : List ReadyItem).length 0 0 =
      if e2.lt e1 then [e2, e1] else [e1, e2] := by
    show siftupLoop [e2, e1] e2 2 0 0 = _
    rw [siftupLoop]
    rw [dif_pos (by omega)]
    rw [dif_neg (by intro hc; exact absurd hc.1 (by omega))]
    show siftupLoop [e1, e1] e2 2 0 1 = _
    rw [siftupLoop]
    rw [dif_neg (by omega)]
    show siftdownLoop [e1, e2] e2 0 1 = _
    exact siftdownLoop_pair e1 e2
  rw [hsift]
  rfl
lemma getD_set_ne (l : List ReadyItem) (i j : Nat) (x : ReadyItem) (hij : i ≠ j) :
    (l.set i x).getD j default = l.getD j default := by
  by_cases hj : j < l.length
  · rw [List.getD_eq_getElem _ _ (by simpa using hj), List.getD_eq_getElem _ _ hj]
    exact List.getElem_set_ne hij _
  · rw [List.getD_eq_default _ _ (by simp; omega), List.getD_eq_default _ _ (by omega)]

lemma getD_set_self (l : List ReadyItem) (i : Nat) (x : ReadyItem) (hi : i < l.length) :
    (l.set i x).getD i default = x := by
  rw [List.getD_eq_getElem _ _ (by simpa using hi)]
  exact List.getElem_set_eq _

lemma lt_asymm_keyed (a1 a2 : Int) (ap : Process) (b1 b2 : Int) (bp : Process)
    (h : (ReadyItem.keyed a1 a2 ap).lt (ReadyItem.keyed b1 b2 bp) = true) :
    (ReadyItem.keyed b1 b2 bp).lt (ReadyItem.keyed a1 a2 ap) = false := by
  rw [lt_keyed_iff] at h
  rw [← Bool.not_eq_true, lt_keyed_iff]
  omega

lemma lt_cross_keyed (n1 n2 : Int) (np : Process) (b1 b2 : Int) (bp : Process)
    (s1 s2 : Int) (sp : Process)
    (h1 : (ReadyItem.keyed n1 n2 np).lt (ReadyItem.keyed b1 b2 bp) = true)
    (h2 : (ReadyItem.keyed s1 s2 sp).lt (ReadyItem.keyed b1 b2 bp) = false) :
    (ReadyItem.keyed s1 s2 sp).lt (ReadyItem.keyed n1 n2 np) = false := by
  rw [lt_keyed_iff] at h1
  rw [← Bool.not_eq_true, lt_keyed_iff] at h2 ⊢
  omega

lemma siftdownLoop_length (newitem : ReadyItem) :
    ∀ (pos : Nat) (heap : List ReadyItem) (startpos : Nat),
      (siftdownLoop heap newitem startpos pos).length = heap.length := by
  intro pos
  induction pos using Nat.strong_induction_on with
  | _ pos ih =>
    intro heap startpos
    rw [siftdownLoop]
    by_cases hlt : startpos < pos
    · rw [dif_pos hlt]
      by_cases hc : newitem.lt (heap.getD ((pos - 1) / 2) default) = true
      · rw [if_pos hc, ih ((pos - 1) / 2) (by omega)]
        simp
      · rw [if_neg hc]
        simp
    · rw [dif_neg hlt]
      simp

lemma siftupLoop_length (newitem : ReadyItem) (endpos : Nat) :
    ∀ (fuel pos : Nat), pos + fuel = endpos →
      ∀ (heap : List ReadyItem) (startpos : Nat),
        (siftupLoop heap newitem endpos startpos pos).length = heap.length := by
  intro fuel
  induction fuel using Nat.strong_induction_on with
  | _ fuel ih =>
    intro pos hpe heap startpos
    rw [siftupLoop]
    by_cases h1 : 2 * pos + 1 < endpos
    · rw [dif_pos h1]
      by_cases h2 : 2 * pos + 2 < endpos ∧
          ¬((heap.getD (2 * pos + 1) default).lt (heap.getD (2 * pos + 2) default) = true)
      · rw [dif_pos h2, ih (endpos - (2 * pos + 2)) (by omega) _ (by omega)]
        simp
      · rw [dif_neg h2, ih (endpos - (2 * pos + 1)) (by omega) _ (by omega)]
        simp
    · rw [dif_neg h1, siftdownLoop_length]
      simp

/-- An entry is a heap tuple (SJF and Priority only ever push these). -/
def ReadyItem.isKeyed : ReadyItem → Bool
  | .plain _ => false
  | .keyed _ _ _ => true

lemma isKeyed_iff (it : ReadyItem) :
    it.isKeyed = true ↔ ∃ k1 k2 q, it = ReadyItem.keyed k1 k2 q := by
  cases it with
  | plain p => simp [ReadyItem.isKeyed]
  | keyed k1 k2 q => simp [ReadyItem.isKeyed]

lemma lt_negtrans (a b c : ReadyItem) (ha : a.isKeyed = true) (hb : b.isKeyed = true)
    (hc : c.isKeyed = true) (h1 : b.lt a = false) (h2 : c.lt b = false) :
    c.lt a = false := by
  rcases (isKeyed_iff a).1 ha with ⟨a1, a2, ap, rfl⟩
  rcases (isKeyed_iff b).1 hb with ⟨b1, b2, bp, rfl⟩
  rcases (isKeyed_iff c).1 hc with ⟨c1, c2, cp, rfl⟩
  exact lt_negtrans_keyed a1 a2 ap b1 b2 bp c1 c2 cp h1 h2

lemma readyLt_asymm (a b : ReadyItem) (h : a.lt b = true) : b.lt a = false := by
  cases a with
  | plain p => simp [ReadyItem.lt] at h
  | keyed a1 a2 ap =>
    cases b with
    | plain q => simp [ReadyItem.lt] at h
    | keyed b1 b2 bp => exact lt_asymm_keyed a1 a2 ap b1 b2 bp h

lemma lt_cross (n b s : ReadyItem) (hs : s.isKeyed = true)
    (h1 : n.lt b = true) (h2 : s.lt b = false) : s.lt n = false := by
  cases n with
  | plain p => simp [ReadyItem.lt] at h1
  | keyed n1 n2 np =>
    cases b with
    | plain q => simp [ReadyItem.lt] at h1
    | keyed b1 b2 bp =>
      rcases (isKeyed_iff s).1 hs with ⟨s1, s2, sp, rfl⟩
      exact lt_cross_keyed n1 n2 np b1 b2 bp s1 s2 sp h1 h2

lemma getD_mem (l : List ReadyItem) (i : Nat) (h : i < l.length) :
    l.getD i default ∈ l := by
  rw [List.getD_eq_getElem _ _ h]
  exact List.getElem_mem h

lemma set_newitem_isHeap (heap : List ReadyItem) (newitem : ReadyItem) (pos : Nat)
    (hpos : pos < heap.length)
    (hA : ∀ j, j < heap.length → 0 < j → j ≠ pos →
      ((heap.getD j default).lt (heap.getD ((j - 1) / 2) default)) = false)
    (hB : ∀ c, c < heap.length → (c = 2 * pos + 1 ∨ c = 2 * pos + 2) →
      ((heap.getD c default).lt newitem) = false)
    (hexit : 0 < pos → newitem.lt (heap.getD ((pos - 1) / 2) default) = false) :
    IsHeap (heap.set pos newitem) := by
  intro j hj hj0
  have hj' : j < heap.length := by simpa using hj
  by_cases hjp : j = pos
  · subst hjp
    rw [getD_set_self heap j newitem hpos]
    rw [getD_set_ne heap j ((j - 1) / 2) newitem (by omega)]
    exact hexit hj0
  · by_cases hpj : (j - 1) / 2 = pos
    · rw [getD_set_ne heap pos j newitem (by omega)]
      rw [hpj, getD_set_self heap pos newitem hpos]
      exact hB j hj' (by omega)
    · rw [getD_set_ne heap pos j newitem (by omega)]
      rw [getD_set_ne heap pos ((j - 1) / 2) newitem (by omega)]
      exact hA j hj' hj0 hjp

lemma siftdownLoop_keyed (newitem : ReadyItem) (hn : newitem.isKeyed = true) :
    ∀ (pos : Nat) (heap : List ReadyItem) (startpos : Nat),
      pos < heap.length →
      (∀ it ∈ heap, it.isKeyed = true) →
      ∀ it ∈ siftdownLoop heap newitem startpos pos, it.isKeyed = true := by
  intro pos
  induction pos using Nat.strong_induction_on with
  | _ pos ih =>
    intro heap startpos hpos hkey it hit
    rw [siftdownLoop] at hit
    by_cases hlt : startpos < pos
    · rw [dif_pos hlt] at hit
      by_cases hc : newitem.lt (heap.getD ((pos - 1) / 2) default) = true
      · rw [if_pos hc] at hit
        refine ih ((pos - 1) / 2) (by omega) _ _ (by simp; omega) ?_ it hit
        intro x hx
        rcases List.mem_or_eq_of_mem_set hx with hx' | rfl
        · exact hkey x hx'
        · exact hkey _ (getD_mem heap ((pos - 1) / 2) (by omega))
      · rw [if_neg hc] at hit
        rcases List.mem_or_eq_of_mem_set hit with hx' | rfl
        · exact hkey it hx'
        · exact hn
    · rw [dif_neg hlt] at hit
      rcases List.mem_or_eq_of_mem_set hit with hx' | rfl
      · exact hkey it hx'
      · exact hn

lemma siftdownLoop_isHeap (newitem : ReadyItem) (hn : newitem.isKeyed = true) :
    ∀ (pos : Nat) (heap : List ReadyItem),
      pos < heap.length →
      (∀ it ∈ heap, it.isKeyed = true) →
      (∀ j, j < heap.length → 0 < j → j ≠ pos →
        ((heap.getD j default).lt (heap.getD ((j - 1) / 2) default)) = false) →
      (∀ c, c < heap.length → (c = 2 * pos + 1 ∨ c = 2 * pos + 2) →
        ((heap.getD c default).lt newitem) = false) →
      (0 < pos → ∀ c, c < heap.length → (c = 2 * pos + 1 ∨ c = 2 * pos + 2) →
        ((heap.getD c default).lt (heap.getD ((pos - 1) / 2) default)) = false) →
      IsHeap (siftdownLoop heap newitem 0 pos) := by
  intro pos
  induction pos using Nat.strong_induction_on with
  | _ pos ih =>
    intro heap hpos hkey hA hB hC
    rw [siftdownLoop]
    by_cases hlt : 0 < pos
    · rw [dif_pos hlt]
      by_cases hc : newitem.lt (heap.getD ((pos - 1) / 2) default) = true
      · rw [if_pos hc]
        have hparlt : (pos - 1) / 2 < pos := by omega
        have hparlen : (pos - 1) / 2 < heap.length := by omega
        have hkeyD : ∀ i, i < heap.length → (heap.getD i default).isKeyed = true :=
          fun i hi => hkey _ (getD_mem heap i hi)
        refine ih ((pos - 1) / 2) hparlt _ (by simp; omega) ?_ ?_ ?_ ?_
        · intro x hx
          rcases List.mem_or_eq_of_mem_set hx with hx' | rfl
          · exact hkey x hx'
          · exact hkeyD _ hparlen
        · intro j hj hj0 hjp
          have hj' : j < heap.length := by simpa using hj
          by_cases hjpos : j = pos
          · subst hjpos
            rw [getD_set_self heap j _ hpos]
            rw [getD_set_ne heap j ((j - 1) / 2) _ (by omega)]
            exact lt_self_false _
          · by_cases hparj : (j - 1) / 2 = pos
            · rw [getD_set_ne heap pos j _ (by omega)]
              rw [hparj, getD_set_self heap pos _ hpos]
              exact hC hlt j hj' (by omega)
            · rw [getD_set_ne heap pos j _ (by omega)]
              rw [getD_set_ne heap pos ((j - 1) / 2) _ (by omega)]
              exact hA j hj' hj0 hjpos
        · intro c hc' hcc
          have hc'' : c < heap.length := by simpa using hc'
          by_cases hcpos : c = pos
          · subst hcpos
            rw [getD_set_self heap c _ hpos]
            exact readyLt_asymm _ _ hc
          · rw [getD_set_ne heap pos c _ (by omega)]
            have hApc : ((heap.getD c default).lt
                (heap.getD ((pos - 1) / 2) default)) = false := by
              have := hA c hc'' (by omega) hcpos
              have heq : (c - 1) / 2 = (pos - 1) / 2 := by omega
              rwa [heq] at this
            exact lt_cross newitem _ _ (hkeyD c hc'') hc hApc
        · intro hpp c hc' hcc
          have hc'' : c < heap.length := by simpa using hc'
          have hgp : ((pos - 1) / 2 - 1) / 2 < (pos - 1) / 2 := by omega
          have hgplen : ((pos - 1) / 2 - 1) / 2 < heap.length := by omega
          have hApar : ((heap.getD ((pos - 1) / 2) default).lt
              (heap.getD (((pos - 1) / 2 - 1) / 2) default)) = false :=
            hA ((pos - 1) / 2) hparlen hpp (by omega)
          rw [getD_set_ne heap pos (((pos - 1) / 2 - 1) / 2) _ (by omega)]
          by_cases hcpos : c = pos
          · subst hcpos
            rw [getD_set_self heap c _ hpos]
            exact hApar
          · rw [getD_set_ne heap pos c _ (by omega)]
            have hAc : ((heap.getD c default).lt
                (heap.getD ((pos - 1) / 2) default)) = false := by
              have := hA c hc'' (by omega) hcpos
              have heq : (c - 1) / 2 = (pos - 1) / 2 := by omega
              rwa [heq] at this
            exact lt_negtrans _ _ _ (hkeyD _ hgplen) (hkeyD _ hparlen)
              (hkeyD c hc'') hApar hAc
      · rw [if_neg hc]
        rw [Bool.not_eq_true] at hc
        exact set_newitem_isHeap heap newitem pos hpos hA hB (fun _ => hc)
    · rw [dif_neg hlt]
      have hp0 : pos = 0 := by omega
      subst hp0
      exact set_newitem_isHeap heap newitem 0 hpos hA hB (by omega)

lemma siftupLoop_isHeap (newitem : ReadyItem) (hn : newitem.isKeyed = true) (endpos : Nat) :
    ∀ (fuel pos : Nat), pos + fuel = endpos →
      ∀ (heap : List ReadyItem),
        heap.length = endpos →
        pos < endpos →
        (∀ it ∈ heap, it.isKeyed = true) →
        (∀ j, j < endpos → 0 < j → j ≠ pos → (j - 1) / 2 ≠ pos →
          ((heap.getD j default).lt (heap.getD ((j - 1) / 2) default)) = false) →
        (0 < pos → ∀ c, c < endpos → (c = 2 * pos + 1 ∨ c = 2 * pos + 2) →
          ((heap.getD c default).lt (heap.getD ((pos - 1) / 2) default)) = false) →
        IsHeap (siftupLoop heap newitem endpos 0 pos) := by
  intro fuel
  induction fuel using Nat.strong_induction_on with
  | _ fuel ih =>
    intro pos hpe heap hlen hpos hkey hA hB
    have hkeyD : ∀ i, i < endpos → (heap.getD i default).isKeyed = true :=
      fun i hi => hkey _ (getD_mem heap i (by omega))
    rw [siftupLoop]
    by_cases h1 : 2 * pos + 1 < endpos
    · rw [dif_pos h1]
      by_cases h2 : 2 * pos + 2 < endpos ∧
          ¬((heap.getD (2 * pos + 1) default).lt (heap.getD (2 * pos + 2) default) = true)
      · rw [dif_pos h2]
        obtain ⟨h2a, h2b⟩ := h2
        rw [Bool.not_eq_true] at h2b
        refine ih (endpos - (2 * pos + 2)) (by omega) (2 * pos + 2) (by omega) _
          (by simp; omega) (by omega) ?_ ?_ ?_
        · intro x hx
          rcases List.mem_or_eq_of_mem_set hx with hx' | rfl
          · exact hkey x hx'
          · exact hkeyD _ (by omega)
        · intro j hj hj0 hjc hjpc
          by_cases hjpos : j = pos
          · subst hjpos
            rw [getD_set_self heap j _ (by omega)]
            rw [getD_set_ne heap j ((j - 1) / 2) _ (by omega)]
            exact hB hj0 (2 * j + 2) (by omega) (by omega)
          · by_cases hparj : (j - 1) / 2 = pos
            · have hj1 : j = 2 * pos + 1 := by omega
              rw [getD_set_ne heap pos j _ (by omega)]
              rw [hparj, getD_set_self heap pos _ (by omega)]
              subst hj1
              exact h2b
            · rw [getD_set_ne heap pos j _ (by omega)]
              rw [getD_set_ne heap pos ((j - 1) / 2) _ (by omega)]
              exact hA j hj hj0 hjpos hparj
        · intro hcp c hcl hcc
          have hpar : (2 * pos + 2 - 1) / 2 = pos := by omega
          rw [hpar, getD_set_self heap pos _ (by omega)]
          rw [getD_set_ne heap pos c _ (by omega)]
          have := hA c hcl (by omega) (by omega) (by omega)
          have heq : (c - 1) / 2 = 2 * pos + 2 := by omega
          rwa [heq] at this
      · rw [dif_neg h2]
        have hlt12 : 2 * pos + 2 < endpos →
            ((heap.getD (2 * pos + 1) default).lt
              (heap.getD (2 * pos + 2) default)) = true := by
          intro hr
          by_contra hx
          exact h2 ⟨hr, hx⟩
        refine ih (endpos - (2 * pos + 1)) (by omega) (2 * pos + 1) (by omega) _
          (by simp; omega) (by omega) ?_ ?_ ?_
        · intro x hx
          rcases List.mem_or_eq_of_mem_set hx with hx' | rfl
          · exact hkey x hx'
          · exact hkeyD _ (by omega)
        · intro j hj hj0 hjc hjpc
          by_cases hjpos : j = pos
          · subst hjpos
            rw [getD_set_self heap j _ (by omega)]
            rw [getD_set_ne heap j ((j - 1) / 2) _ (by omega)]
            exact hB hj0 (2 * j + 1) (by omega) (by omega)
          · by_cases hparj : (j - 1) / 2 = pos
            · have hj2 : j = 2 * pos + 2 := by omega
              rw [getD_set_ne heap pos j _ (by omega)]
              rw [hparj, getD_set_self heap pos _ (by omega)]
              subst hj2
              exact readyLt_asymm _ _ (hlt12 (by omega))
            · rw [getD_set_ne heap pos j _ (by omega)]
              rw [getD_set_ne heap pos ((j - 1) / 2) _ (by omega)]
              exact hA j hj hj0 hjpos hparj
        · intro hcp c hcl hcc
          have hpar : (2 * pos + 1 - 1) / 2 = pos := by omega
          rw [hpar, getD_set_self heap pos _ (by omega)]
          rw [getD_set_ne heap pos c _ (by omega)]
          have := hA c hcl (by omega) (by omega) (by omega)
          have heq : (c - 1) / 2 = 2 * pos + 1 := by omega
          rwa [heq] at this
    · rw [dif_neg h1]
      refine siftdownLoop_isHeap newitem hn pos _ (by simp; omega) ?_ ?_ ?_ ?_
      · intro x hx
        rcases List.mem_or_eq_of_mem_set hx with hx' | rfl
        · exact hkey x hx'
        · exact hn
      · intro j hj hj0 hjp
        have hj' : j < endpos := by simp at hj; omega
        by_cases hparj : (j - 1) / 2 = pos
        · omega
        · rw [getD_set_ne heap pos j _ (by omega)]
          rw [getD_set_ne heap pos ((j - 1) / 2) _ (by omega)]
          exact hA j hj' hj0 hjp hparj
      · intro c hcl hcc
        simp at hcl
        omega
      · intro hpp c hcl hcc
        simp at hcl
        omega

lemma heappush_keyed (heap : List ReadyItem) (item : ReadyItem)
    (hkey : ∀ it ∈ heap, it.isKeyed = true) (hi : item.isKeyed = true) :
    ∀ it ∈ heappush heap item, it.isKeyed = true := by
  rw [heappush]
  refine siftdownLoop_keyed item hi heap.length (heap ++ [item]) 0 (by simp) ?_
  intro x hx
  rcases List.mem_append.1 hx with hx' | hx'
  · exact hkey x hx'
  · simp at hx'
    subst hx'
    exact hi

lemma heappush_isHeap (heap : List ReadyItem) (item : ReadyItem)
    (hkey : ∀ it ∈ heap, it.isKeyed = true) (hi : item.isKeyed = true)
    (hh : IsHeap heap) : IsHeap (heappush heap item) := by
  rw [heappush]
  refine siftdownLoop_isHeap item hi heap.length (heap ++ [item]) (by simp) ?_ ?_ ?_ ?_
  · intro x hx
    rcases List.mem_append.1 hx with hx' | hx'
    · exact hkey x hx'
    · simp at hx'
      subst hx'
      exact hi
  · intro j hj hj0 hjp
    have hj' : j < heap.length := by
      simp at hj
      omega
    have hpar : (j - 1) / 2 < heap.length := by omega
    rw [List.getD_append _ _ _ _ hj', List.getD_append _ _ _ _ hpar]
    exact hh j hj' hj0
  · intro c hcl hcc
    simp at hcl
    omega
  · intro hp c hcl hcc
    simp at hcl
    omega

lemma getD_dropLast (l : List ReadyItem) (i : Nat) (h : i < l.dropLast.length) :
    l.dropLast.getD i default = l.getD i default := by
  have h' : i < l.length := by
    simp at h
    omega
  rw [List.getD_eq_getElem _ _ h, List.getD_eq_getElem _ _ h']
  exact List.getElem_dropLast l i h

lemma siftupLoop_keyed (newitem : ReadyItem) (hn : newitem.isKeyed = true) (endpos : Nat) :
    ∀ (fuel pos : Nat), pos + fuel = endpos →
      ∀ (heap : List ReadyItem) (startpos : Nat),
        heap.length = endpos →
        pos < endpos →
        (∀ it ∈ heap, it.isKeyed = true) →
        ∀ it ∈ siftupLoop heap newitem endpos startpos pos, it.isKeyed = true := by
  intro fuel
  induction fuel using Nat.strong_induction_on with
  | _ fuel ih =>
    intro pos hpe heap startpos hlen hpos hkey it hit
    rw [siftupLoop] at hit
    by_cases h1 : 2 * pos + 1 < endpos
    · rw [dif_pos h1] at hit
      by_cases h2 : 2 * pos + 2 < endpos ∧
          ¬((heap.getD (2 * pos + 1) default).lt (heap.getD (2 * pos + 2) default) = true)
      · rw [dif_pos h2] at hit
        refine ih (endpos - (2 * pos + 2)) (by omega) (2 * pos + 2) (by omega) _ _
          (by simp; omega) (by omega) ?_ it hit
        intro x hx
        rcases List.mem_or_eq_of_mem_set hx with hx' | rfl
        · exact hkey x hx'
        · exact hkey _ (getD_mem heap _ (by omega))
      · rw [dif_neg h2] at hit
        refine ih (endpos - (2 * pos + 1)) (by omega) (2 * pos + 1) (by omega) _ _
          (by simp; omega) (by omega) ?_ it hit
        intro x hx
        rcases List.mem_or_eq_of_mem_set hx with hx' | rfl
        · exact hkey x hx'
        · exact hkey _ (getD_mem heap _ (by omega))
    · rw [dif_neg h1] at hit
      refine siftdownLoop_keyed newitem hn pos _ startpos (by simp; omega) ?_ it hit
      intro x hx
      rcases List.mem_or_eq_of_mem_set hx with hx' | rfl
      · exact hkey x hx'
      · exact hn

lemma heappop_inv (heap : List ReadyItem) (x : ReadyItem) (h' : List ReadyItem)
    (hkey : ∀ it ∈ heap, it.isKeyed = true) (hh : IsHeap heap)
    (hp : heappop heap = some (x, h')) :
    (∀ it ∈ h', it.isKeyed = true) ∧ IsHeap h' := by
  rw [heappop] at hp
  cases hgl : heap.getLast? with
  | none => rw [hgl] at hp; simp at hp
  | some lastelt =>
    rw [hgl] at hp
    dsimp only at hp
    have hlast : lastelt ∈ heap := List.mem_of_mem_getLast? hgl
    by_cases hemp : heap.dropLast.isEmpty
    · rw [if_pos hemp] at hp
      simp only [Option.some.injEq, Prod.mk.injEq] at hp
      obtain ⟨rfl, rfl⟩ := hp
      constructor
      · intro it hit
        exact hkey it (List.mem_of_mem_dropLast hit)
      · intro j hj hj0
        rw [List.isEmpty_iff] at hemp
        rw [hemp] at hj
        simp at hj
    · rw [if_neg hemp] at hp
      simp only [Option.some.injEq, Prod.mk.injEq] at hp
      obtain ⟨rfl, rfl⟩ := hp
      have hrl : 0 < heap.dropLast.length := by
        rw [List.isEmpty_iff] at hemp
        exact List.length_pos.mpr hemp
      have hkey' : ∀ it ∈ heap.dropLast.set 0 lastelt, it.isKeyed = true := by
        intro x hx
        rcases List.mem_or_eq_of_mem_set hx with hx' | rfl
        · exact hkey x (List.mem_of_mem_dropLast hx')
        · exact hkey _ hlast
      constructor
      · exact siftupLoop_keyed lastelt (hkey _ hlast) heap.dropLast.length
          heap.dropLast.length 0 (by omega) _ 0 (by simp) hrl hkey'
      · refine siftupLoop_isHeap lastelt (hkey _ hlast) heap.dropLast.length
          heap.dropLast.length 0 (by omega) _ (by simp) hrl hkey' ?_ (by omega)
        intro j hj hj0 hjp hjpp
        rw [getD_set_ne _ 0 j _ (by omega), getD_set_ne _ 0 ((j - 1) / 2) _ (by omega)]
        rw [getD_dropLast _ _ (by omega), getD_dropLast _ _ (by omega)]
        exact hh j (by simp at hj ⊢; omega) hj0

/-- Ready queues constructible by the scheduler's own heap operations:
starting from the empty list, pushing `(key, arrival_time, process)` tuples
(as the SJF and Priority branches do) and popping. -/
inductive HeapReachable : List ReadyItem → Prop where
  | nil : HeapReachable []
  | push (h : List ReadyItem) (k1 k2 : Int) (p : Process) :
      HeapReachable h → HeapReachable (heappush h (ReadyItem.keyed k1 k2 p))
  | pop (h : List ReadyItem) (x : ReadyItem) (h' : List ReadyItem) :
      HeapReachable h → heappop h = some (x, h') → HeapReachable h'

/-- Every ready queue the scheduler can build holds only keyed tuples and
satisfies the binary-heap shape invariant: `heappush` and `heappop`
maintain `IsHeap`, exactly as CPython's `heapq` documentation promises. -/
lemma heapReachable_inv (h : List ReadyItem) (hr : HeapReachable h) :
    (∀ it ∈ h, it.isKeyed = true) ∧ IsHeap h := by
  induction hr with
  | nil =>
    refine ⟨by simp, ?_⟩
    intro j hj hj0
    simp at hj
  | push h k1 k2 p _ ih =>
    exact ⟨heappush_keyed h _ ih.1 rfl, heappush_isHeap h _ ih.1 rfl ih.2⟩
  | pop h x h' _ hp ih =>
    exact heappop_inv h x h' ih.1 ih.2 hp


/-- **C4 (amended).** Under SJF and Priority, `get_next_process` pops the
root of the `heapq` heap, and for a ready queue of any size satisfying the
binary-heap shape invariant the root is minimal: every ready tuple
`(k1, k2, q)` has no strictly smaller primary key than the dispatched
root `(a1, a2, p0)`; on an equal primary key no strictly earlier
`arrival_time`; and on an equal key and arrival the tie falls through to
`Process.__lt__`, i.e. to `priority` -- never to insertion order. -/
theorem ready_dispatch_minimal (s : SchedState) (a1 a2 : Int) (p0 : Process)
    (rest : List ReadyItem) (p : Process) (s' : SchedState)
    (halg : s.algorithm = "SJF" ∨ s.algorithm = "Priority")
    (hq : s.ready_queue = .keyed a1 a2 p0 :: rest)
    (hkeyed : ∀ it ∈ s.ready_queue, ∃ k1 k2 q, it = ReadyItem.keyed k1 k2 q)
    (hheap : IsHeap s.ready_queue)
    (h : getNext s = some (p, s')) :
    p = p0 ∧
    ∀ k1 k2 q, ReadyItem.keyed k1 k2 q ∈ s.ready_queue →
      ¬(k1 < a1) ∧ (k1 = a1 → ¬(k2 < a2)) ∧
      (k1 = a1 → k2 = a2 → ¬(q.priority < p0.priority)) := by
  have hcond : (s.algorithm == "SJF" || s.algorithm == "Priority") = true := by
    rcases halg with h' | h' <;> simp [h']
  constructor
  · rw [getNext.eq_def, hq] at h
    dsimp only at h
    rw [if_pos hcond] at h
    obtain ⟨h', hpop⟩ := heappop_head (.keyed a1 a2 p0) rest
    rw [hpop] at h
    simp only [Option.some.injEq, Prod.mk.injEq] at h
    exact h.1.symm
  · intro k1 k2 q hmem
    obtain ⟨i, hi, hgi⟩ := List.mem_iff_getElem.1 hmem
    have hroot : s.ready_queue.getD 0 default = .keyed a1 a2 p0 := by
      rw [hq]; rfl
    have hmin := isHeap_root_min s.ready_queue hkeyed hheap i hi
    rw [List.getD_eq_getElem s.ready_queue default hi, hgi, hroot] at hmin
    rw [← Bool.not_eq_true, lt_keyed_iff] at hmin
    exact ⟨fun hc => hmin (Or.inl hc),
      fun he hc => hmin (Or.inr ⟨he, Or.inl hc⟩),
      fun he he2 hc => hmin (Or.inr ⟨he, Or.inr ⟨he2, hc⟩⟩)⟩

/-- Closed instance of `ready_dispatch_minimal` on a three-element SJF
heap: the root (key 5, arrival 0) is dispatched and every entry meets the
minimality conditions. -/

theorem ready_dispatch_minimal_witness :
    (mkProcess 1 0 5 4 0) = (mkProcess 1 0 5 4 0) ∧
    ∀ k1 k2 q, ReadyItem.keyed k1 k2 q ∈
        ([.keyed 5 0 (mkProcess 1 0 5 4 0), .keyed 5 1 (mkProcess 2 1 5 4 0),
          .keyed 6 0 (mkProcess 3 0 6 4 0)] : List ReadyItem) →
      ¬(k1 < 5) ∧ (k1 = 5 → ¬(k2 < 0)) ∧
      (k1 = 5 → k2 = 0 → ¬(q.priority < (mkProcess 1 0 5 4 0).priority)) := by
  have hgn : getNext
      { algorithm := "SJF", time_quantum := 2,
        ready_queue := [.keyed 5 0 (mkProcess 1 0 5 4 0), .keyed 5 1 (mkProcess 2 1 5 4 0),
          .keyed 6 0 (mkProcess 3 0 6 4 0)],
        current_time := 0, completed := [], gantt := [] } =
      some (mkProcess 1 0 5 4 0,
        { algorithm := "SJF", time_quantum := 2,
          ready_queue := [.keyed 5 1 (mkProcess 2 1 5 4 0), .keyed 6 0 (mkProcess 3 0 6 4 0)],
          current_time := 0, completed := [], gantt := [] }) := by
    rw [getNext.eq_def]
    dsimp only
    rw [if_pos (by decide), heappop_three]
    rw [if_neg (by decide)]
    rfl
  exact ready_dispatch_minimal
    { algorithm := "SJF", time_quantum := 2,
      ready_queue := [.keyed 5 0 (mkProcess 1 0 5 4 0), .keyed 5 1 (mkProcess 2 1 5 4 0),
        .keyed 6 0 (mkProcess 3 0 6 4 0)],
      current_time := 0, completed := [], gantt := [] }
    5 0 (mkProcess 1 0 5 4 0)
    [.keyed 5 1 (mkProcess 2 1 5 4 0), .keyed 6 0 (mkProcess 3 0 6 4 0)]
    (mkProcess 1 0 5 4 0)
    { algorithm := "SJF", time_quantum := 2,
      ready_queue := [.keyed 5 1 (mkProcess 2 1 5 4 0), .keyed 6 0 (mkProcess 3 0 6 4 0)],
      current_time := 0, completed := [], gantt := [] }
    (Or.inl rfl) rfl
    (by
      intro it hit
      simp only [List.mem_cons, List.not_mem_nil, or_false] at hit
      rcases hit with rfl | rfl | rfl
      · exact ⟨_, _, _, rfl⟩
      · exact ⟨_, _, _, rfl⟩
      · exact ⟨_, _, _, rfl⟩)
    (by unfold IsHeap; decide) hgn
